import Mathlib

/-!
Verification of the log-level migration tool (`tools/migrate_log_levels.py`).

The tool rewrites C++ sources from the legacy `log_level` enum to
`log_level_v2`.  This file gives a shallow embedding of the tool: file
contents are `List Char`, the regex
`(?<!log_level_v2::)(?<!_v2::)\blog_level::(trace|debug|info|warning|error|critical)\b`
is modelled by an explicit left-to-right scanner (`subScan`) that keeps the
already-consumed original characters in reverse order (for the lookbehinds
and the leading word boundary), and the auxiliary regexes of the include
injector are modelled by dedicated decidable scanners.  Word characters and
whitespace are modelled over ASCII, matching Python's `\w` and `\s` on the
ASCII range.
-/

namespace MigrateLogLevels

/-- ASCII model of Python's regex `\w` (word character). -/
def wordChar (c : Char) : Bool :=
  c.isAlpha || c.isDigit || c == '_'

/-- ASCII model of Python's `\s` (whitespace in `str.strip`, `\s*`, `\s+`). -/
def isSpacePy (c : Char) : Bool :=
  c == ' ' || c == '\t' || c == '\n' || c == '\r' || c == '\x0b' || c == '\x0c'

/-- A word boundary `\b` sits between a word character and this suffix:
the suffix is empty or starts with a non-word character.  (Also used for the
boundary before `log_level::`, reading the reversed prefix.) -/
def boundaryOK : List Char → Bool
  | [] => true
  | c :: _ => !wordChar c

/-- `wbMatch w s`: the literal word `w` occurs at the head of `s`, followed by
a word boundary (`w` always ends in a word character at every use site). -/
def wbMatch : List Char → List Char → Bool
  | [], s => boundaryOK s
  | _ :: _, [] => false
  | a :: w, b :: s => a == b && wbMatch w s

/-- `LEVEL_MAPPINGS` from `migrate_log_levels.py` (lines 59-66), in source
order; `warning` maps to `warn`. -/
def LEVEL_MAPPINGS : List (List Char × List Char) :=
  [ ("trace".toList, "trace".toList)
  , ("debug".toList, "debug".toList)
  , ("info".toList, "info".toList)
  , ("warning".toList, "warn".toList)
  , ("error".toList, "error".toList)
  , ("critical".toList, "critical".toList) ]

/-- The matched span for a legacy key: `log_level::<key>`. -/
def spanOf (key : List Char) : List Char :=
  "log_level::".toList ++ key

/-- The replacement text produced by `replace_match` (lines 106-109):
`log_level_v2::<mapped>`. -/
def replOf (m : List Char) : List Char :=
  "log_level_v2::".toList ++ m

/-- Try each mapping entry in order: does `log_level::<key>` with a trailing
word boundary sit at the head of `s`?  Models the regex alternation
`log_level::(trace|debug|info|warning|error|critical)\b` of
`create_migration_pattern` (line 97). -/
def findKey : List (List Char × List Char) → List Char → Option (List Char × List Char)
  | [], _ => none
  | (k, m) :: rest, s => if wbMatch (spanOf k) s then some (k, m) else findKey rest s

/-- The textual part of the migration pattern at the head of `s`. -/
def findSpan (s : List Char) : Option (List Char × List Char) :=
  findKey LEVEL_MAPPINGS s

/-- The zero-width context checks of the migration pattern at the current
position, reading the reversed already-consumed input: the leading `\b`
(the character before the match, if any, is not a word character) and the
negative lookbehinds `(?<!_v2::)` and `(?<!log_level_v2::)`. -/
def ctxOK (revPrev : List Char) : Bool :=
  boundaryOK revPrev
    && !(("_v2::".toList.reverse).isPrefixOf revPrev)
    && !(("log_level_v2::".toList.reverse).isPrefixOf revPrev)

/-- A full match of `create_migration_pattern` at the current position:
context checks against the original prefix, then the literal span. -/
def tryMatch (revPrev s : List Char) : Option (List Char × List Char) :=
  if ctxOK revPrev then findSpan s else none

/-- Worker for the left-to-right non-overlapping substitution scan of
`pattern.sub` (`migrate_line`, line 111).  `skip` counts characters of an
already-emitted matched span that remain to be consumed (they go into the
lookbehind context but produce no output); with `skip = 0`, try the pattern
at the current position: on a match emit `log_level_v2::<mapped>` and skip
the span, otherwise copy one character. -/
def subScanA (skip : Nat) (revPrev : List Char) : List Char → List Char
  | [] => []
  | c :: cs =>
    match skip with
    | n + 1 => subScanA n (c :: revPrev) cs
    | 0 =>
      match tryMatch revPrev (c :: cs) with
      | some (k, m) => replOf m ++ subScanA ((spanOf k).length - 1) (c :: revPrev) cs
      | none => c :: subScanA 0 (c :: revPrev) cs

/-- The substitution `pattern.sub(replace_match, line)` of `migrate_line`:
scan from the start with an empty already-consumed prefix. -/
def subScan (revPrev : List Char) (s : List Char) : List Char :=
  subScanA 0 revPrev s

/-- `migrate_line` (lines 101-112): substitute on one line, and report
whether the line changed. -/
def migrate_line (line : List Char) : List Char × Bool :=
  let n := subScan [] line
  (n, n != line)

/-- Python's `content.split('\n')`. -/
def splitNl : List Char → List (List Char)
  | [] => [[]]
  | c :: cs =>
    if c = '\n' then [] :: splitNl cs
    else
      match splitNl cs with
      | [] => [[c]]
      | l :: ls => (c :: l) :: ls

/-- Python's `'\n'.join(lines)`. -/
def joinNl : List (List Char) → List Char
  | [] => []
  | [l] => l
  | l :: ls => l ++ '\n' :: joinNl ls

/-- Python's `str.strip()` (ASCII whitespace model). -/
def pyStrip (l : List Char) : List Char :=
  ((l.dropWhile isSpacePy).reverse.dropWhile isSpacePy).reverse

/-- Try a position predicate at every suffix of the input: the shape of
Python's `re.search` / substring `in` over our literal scanners. -/
def scanPos (f : List Char → Bool) : List Char → Bool
  | [] => f []
  | c :: cs => f (c :: cs) || scanPos f cs

/-- Python's substring test `pat in s` (and `re.search` on a fully escaped
literal pattern). -/
def strSearch (pat s : List Char) : Bool :=
  scanPos (fun t => pat.isPrefixOf t) s

/-- The tail `log_level\.h[>"]` of the include-detection regex at the
current position. -/
def llhAt (s : List Char) : Bool :=
  "log_level.h".toList.isPrefixOf s &&
    (match s.drop 11 with
     | c :: _ => c == '>' || c == '"'
     | [] => false)

/-- `.*log_level\.h[>"]`: a match of `llhAt` reachable without crossing a
newline (Python's `.` does not match `\n`). -/
def searchLLH : List Char → Bool
  | [] => false
  | c :: cs => llhAt (c :: cs) || (c != '\n' && searchLLH cs)

/-- One position of `re.search(r'#include\s*[<"].*log_level\.h[>"]', content)`
(`needs_include_update`, line 120): the literal `#include`, a whitespace run
(`\s` may cross newlines), an opening `<` or `"`, then `.*log_level\.h[>"]`. -/
def matchIncludeAt (s : List Char) : Bool :=
  "#include".toList.isPrefixOf s &&
    (match (s.drop 8).dropWhile isSpacePy with
     | q :: r => (q == '<' || q == '"') && searchLLH r
     | [] => false)

/-- `re.search(r'#include\s*[<"].*log_level\.h[>"]', content)` as a Bool. -/
def hasIncludeLLH (content : List Char) : Bool :=
  scanPos matchIncludeAt content

/-- `needs_include_update` (lines 115-123). -/
def needs_include_update (content : List Char) : Bool :=
  if strSearch "log_level_v2::".toList content then !hasIncludeLLH content else false

/-- One position of `re.search(r'#include\s*[<"]kcenon/thread/', line)`
(`add_log_level_include`, line 136). -/
def kcenonIncludeAt (s : List Char) : Bool :=
  "#include".toList.isPrefixOf s &&
    (match (s.drop 8).dropWhile isSpacePy with
     | q :: r => (q == '<' || q == '"') && "kcenon/thread/".toList.isPrefixOf r
     | [] => false)

/-- `re.search` of the kcenon/thread include pattern anywhere in a line. -/
def lineHasKcenon (line : List Char) : Bool :=
  scanPos kcenonIncludeAt line

/-- Continuation of `\w+_H` after at least one word character has been
consumed: scan word characters until a literal `_H`. -/
def findUH : List Char → Bool
  | '_' :: 'H' :: _ => true
  | c :: cs => wordChar c && findUH cs
  | [] => false

/-- The `\w+_H` part of the header-guard regex: at least one word character,
then (through word characters) a literal `_H`. -/
def ifndefBody : List Char → Bool
  | c :: cs => wordChar c && findUH cs
  | [] => false

/-- `re.match(r'#ifndef\s+\w+_H', line)` (line 145): anchored at the start
of the line. -/
def ifndefMatch (line : List Char) : Bool :=
  "#ifndef".toList.isPrefixOf line &&
    (match line.drop 7 with
     | c :: cs => isSpacePy c && ifndefBody (cs.dropWhile isSpacePy)
     | [] => false)

/-- The inserted declaration (line 152). -/
def include_line : List Char :=
  "#include <kcenon/thread/core/log_level.h>".toList

/-- The insertion-point loop of `add_log_level_include` (lines 134-140):
a kcenon/thread include always updates the index (so the last one wins); a
plain `#include` line records the index only while it is still unset. -/
def findInsertIdx : Nat → Option Nat → List (List Char) → Option Nat
  | _, acc, [] => acc
  | i, acc, l :: ls =>
    findInsertIdx (i + 1)
      (if lineHasKcenon l then some (i + 1)
       else if "#include".toList.isPrefixOf l && acc.isNone then some (i + 1)
       else acc) ls

/-- The fallback scan of `add_log_level_include` (lines 143-147): first line
that is `#pragma once` or an `#ifndef ..._H` guard. -/
def findGuardIdx : Nat → List (List Char) → Option Nat
  | _, [] => none
  | i, l :: ls =>
    if "#pragma once".toList.isPrefixOf l || ifndefMatch l then some (i + 1)
    else findGuardIdx (i + 1) ls

/-- `add_log_level_include` (lines 126-156). -/
def add_log_level_include (content : List Char) : List Char :=
  let lines := splitNl content
  let idx :=
    match findInsertIdx 0 none lines with
    | some i => i
    | none =>
      match findGuardIdx 0 lines with
      | some i => i
      | none => 0
  joinNl (if strSearch include_line content then lines else lines.insertIdx idx include_line)

/-- Python's `os.path.basename` on POSIX: the part after the last `/`. -/
def basename (p : List Char) : List Char :=
  (p.reverse.takeWhile (fun c => c != '/')).reverse

/-- `SKIP_PATTERNS` (lines 53-56), as regex source strings. -/
def SKIP_PATTERNS : List (List Char) :=
  ["logger_interface\\.h".toList, "thread_logger\\.h".toList]

/-- A regex whose only metacharacters are backslash escapes denotes the
literal obtained by dropping the backslashes. -/
def regexLiteral : List Char → List Char
  | [] => []
  | '\\' :: c :: r => c :: regexLiteral r
  | c :: r => c :: regexLiteral r

/-- `should_skip_file`'s pattern loop (lines 85-87): first matching pattern
wins and supplies the reason string. -/
def skipLoop : List (List Char) → List Char → Bool × List Char
  | [], _ => (false, [])
  | pat :: rest, filename =>
    if strSearch (regexLiteral pat) filename then
      (true, "Matches skip pattern: ".toList ++ pat)
    else skipLoop rest filename

/-- `should_skip_file` (lines 81-89): test the base name against the skip
patterns. -/
def should_skip_file (filepath : List Char) : Bool × List Char :=
  skipLoop SKIP_PATTERNS (basename filepath)

/-- Per-line pass of `migrate_file` (lines 181-185): rewrite each line,
recording `(1-based line number, stripped old, stripped new)` for changed
lines. -/
def migrate_lines : Nat → List (List Char) → List (List Char) × List (Nat × List Char × List Char)
  | _, [] => ([], [])
  | i, l :: ls =>
    let p := migrate_line l
    let rest := migrate_lines (i + 1) ls
    (p.1 :: rest.1, if p.2 then (i, pyStrip l, pyStrip p.1) :: rest.2 else rest.2)

/-- The content transformation of `migrate_file` (lines 177-193): rewrite
line by line, join, and run the include injector when there was at least one
change and the rewritten content needs the include. -/
def migrate_content (content : List Char) : List Char × List (Nat × List Char × List Char) :=
  let pr := migrate_lines 1 (splitNl content)
  let nc := joinNl pr.1
  (if !pr.2.isEmpty && needs_include_update nc then add_log_level_include nc else nc, pr.2)

/-- What `open(filepath).read()` can yield in the model: the content, or a
read failure (permissions, encoding). -/
inductive FileData where
  | readable (content : List Char)
  | unreadable
deriving DecidableEq

/-- `MigrationResult` (lines 69-78). -/
structure MigrationResult where
  path : List Char
  original_content : List Char := []
  new_content : List Char := []
  changes : List (Nat × List Char × List Char) := []
  skipped : Bool := false
  skip_reason : List Char := []
  error : Option (List Char) := none
deriving DecidableEq

/-- `migrate_file` (lines 159-193): skip check, read, per-line rewrite,
include injection. -/
def migrate_file (filepath : List Char) (data : FileData) : MigrationResult :=
  let sk := should_skip_file filepath
  if sk.1 then
    { path := filepath, skipped := true, skip_reason := sk.2 }
  else
    match data with
    | .unreadable => { path := filepath, error := some "Failed to read file".toList }
    | .readable c =>
      let pr := migrate_content c
      { path := filepath, original_content := c, new_content := pr.1, changes := pr.2 }

/-- The filesystem as a map from path to file state. -/
def FS : Type := List Char → FileData

/-- Overwriting one path of the filesystem. -/
def fsUpdate (fs : FS) (p : List Char) (d : FileData) : FS :=
  fun q => if q = p then d else fs q

/-- The CLI flags that affect filesystem behaviour (`--diff`/`--verbose`
only change what is printed). -/
structure Args where
  dry_run : Bool
  backup : Bool
deriving DecidableEq

/-- The run-wide counters of `main` (lines 264-266), plus the messages
written to the error stream (line 272). -/
structure RunStats where
  files_changed : Nat := 0
  files_skipped : Nat := 0
  total_changes : Nat := 0
  errors : List (List Char) := []
deriving DecidableEq

/-- The message printed to stderr for a failed read (line 272). -/
def errorLine (filepath msg : List Char) : List Char :=
  "Error processing ".toList ++ filepath ++ ": ".toList ++ msg

/-- The suffix of backup files (line 301). -/
def bakSuffix : List Char := ".bak".toList

/-- One iteration of `main`'s file loop (lines 268-304): migrate, then
dispatch on error / skipped / no changes; otherwise count the change and, in
a non-dry run, optionally back up and overwrite the file. -/
def stepFile (args : Args) (st : FS × RunStats) (filepath : List Char) : FS × RunStats :=
  let result := migrate_file filepath (st.1 filepath)
  match result.error with
  | some msg => (st.1, { st.2 with errors := st.2.errors ++ [errorLine filepath msg] })
  | none =>
    if result.skipped then
      (st.1, { st.2 with files_skipped := st.2.files_skipped + 1 })
    else if result.changes.isEmpty then st
    else
      let stats2 := { st.2 with files_changed := st.2.files_changed + 1,
                                total_changes := st.2.total_changes + result.changes.length }
      if args.dry_run then (st.1, stats2)
      else
        let fs1 := if args.backup then
            fsUpdate st.1 (filepath ++ bakSuffix) (FileData.readable result.original_content)
          else st.1
        (fsUpdate fs1 filepath (FileData.readable result.new_content), stats2)

/-- The observable outcome of one invocation of `main`. -/
structure MainOutcome where
  fs : FS
  exit_code : Nat
  stats : RunStats
  files_found : Nat

/-- `main` (lines 233-319): existence check on the path (exit 1 before any
discovery), then the sequential loop over the discovered files; the
discovered list is a parameter (the result of `find_files`).  Normal
completion exits 0. -/
def mainRun (args : Args) (pathExists : Bool) (files : List (List Char)) (fs : FS) : MainOutcome :=
  if !pathExists then
    { fs := fs, exit_code := 1, stats := {}, files_found := 0 }
  else
    let r := files.foldl (stepFile args) (fs, {})
    { fs := r.1, exit_code := 0, stats := r.2, files_found := files.length }

/-- `noExt w r = true` certifies that `w` (with its trailing word boundary)
cannot match at the head of `r ++ y` for any continuation `y`. -/
def noExt (w r : List Char) : Bool :=
  if w.length < r.length then !(wbMatch w r) else !(r.isPrefixOf w)

/-- All suffixes of all matched spans (the pattern words that could be looked
for during a rescan). -/
def spanSuffixes : List (List Char) :=
  LEVEL_MAPPINGS.flatMap fun e => (spanOf e.1).tails

/-- The relation between the reversed consumed prefixes of the first pass
(original characters) and the second pass (with replacements substituted). -/
inductive Ctx : List Char → List Char → Prop where
  | nil : Ctx [] []
  | cons (c : Char) {p q : List Char} : Ctx p q → Ctx (c :: p) (c :: q)
  | repl {p q : List Char} (k m : List Char) (hm : (k, m) ∈ LEVEL_MAPPINGS) :
      Ctx p q → Ctx ((spanOf k).reverse ++ p) ((replOf m).reverse ++ q)

/-- The reversed lookbehind patterns and all their tails. -/
def ctxPats : List (List Char) :=
  ("log_level_v2::".toList.reverse).tails ++ ("_v2::".toList.reverse).tails

/-- Certifies that no position strictly inside `r2` (with reversed prefix
accumulating onto `r1rev`) can start a match, whatever follows `r2`. -/
def splitsOK : List Char → List Char → Bool
  | _, [] => true
  | r1rev, c :: r2 =>
    (match r1rev with
     | [] => LEVEL_MAPPINGS.all fun e => noExt (spanOf e.1) (c :: r2)
     | a :: _ => wordChar a || LEVEL_MAPPINGS.all fun e => noExt (spanOf e.1) (c :: r2))
      && splitsOK (c :: r1rev) r2

/-- The insertion index computed by `add_log_level_include`. -/
def addInsertIdx (lines : List (List Char)) : Nat :=
  match findInsertIdx 0 none lines with
  | some i => i
  | none =>
    match findGuardIdx 0 lines with
    | some i => i
    | none => 0

/-- Index of the first line starting with `#include`, counting from `i`. -/
def firstIncludeIdx : Nat → List (List Char) → Option Nat
  | _, [] => none
  | i, l :: ls => if "#include".toList.isPrefixOf l then some i else firstIncludeIdx (i + 1) ls

/-- Componentwise accumulation of run statistics. -/
def addStats (s t : RunStats) : RunStats :=
  { files_changed := s.files_changed + t.files_changed,
    files_skipped := s.files_skipped + t.files_skipped,
    total_changes := s.total_changes + t.total_changes,
    errors := s.errors ++ t.errors }

/-! ### Generic lemmas about the scanners -/

theorem scanPos_iff (f : List Char → Bool) (s : List Char) :
    scanPos f s = true ↔ ∃ a b, s = a ++ b ∧ f b = true := by
  induction s with
  | nil =>
    constructor
    · intro h
      exact ⟨[], [], rfl, h⟩
    · rintro ⟨a, b, hab, hb⟩
      obtain ⟨rfl, rfl⟩ := List.append_eq_nil.mp hab.symm
      exact hb
  | cons c cs ih =>
    simp only [scanPos, Bool.or_eq_true, ih]
    constructor
    · rintro (h | ⟨a, b, rfl, hb⟩)
      · exact ⟨[], c :: cs, rfl, h⟩
      · exact ⟨c :: a, b, rfl, hb⟩
    · rintro ⟨a, b, hab, hb⟩
      cases a with
      | nil =>
        left
        rw [List.nil_append] at hab
        rw [hab]
        exact hb
      | cons x a =>
        right
        obtain ⟨h1, h2⟩ := List.cons_eq_cons.mp hab
        subst h1
        exact ⟨a, b, h2, hb⟩

theorem strSearch_iff (pat s : List Char) :
    strSearch pat s = true ↔ ∃ a b, s = a ++ (pat ++ b) := by
  simp only [strSearch, scanPos_iff]
  constructor
  · rintro ⟨a, b, rfl, hb⟩
    obtain ⟨t, rfl⟩ := List.isPrefixOf_iff_prefix.mp hb
    exact ⟨a, t, rfl⟩
  · rintro ⟨a, b, rfl⟩
    exact ⟨a, pat ++ b, rfl, List.isPrefixOf_iff_prefix.mpr ⟨b, rfl⟩⟩

theorem strSearch_of_parts (pat a b : List Char) :
    strSearch pat (a ++ (pat ++ b)) = true :=
  (strSearch_iff pat _).mpr ⟨a, b, rfl⟩

/-! ### Lemmas about `wbMatch` and `noExt` -/

theorem wbMatch_isPrefixOf {w s : List Char} (h : wbMatch w s = true) : w <+: s := by
  induction w generalizing s with
  | nil => exact List.nil_prefix
  | cons a w ih =>
    cases s with
    | nil => simp [wbMatch] at h
    | cons b s =>
      simp only [wbMatch, Bool.and_eq_true, beq_iff_eq] at h
      exact List.cons_prefix_cons.mpr ⟨h.1, ih h.2⟩

theorem wbMatch_self_append (w v : List Char) : wbMatch w (w ++ v) = boundaryOK v := by
  induction w with
  | nil => rfl
  | cons a w ih => simp [wbMatch, ih]

theorem wbMatch_append_right {w r : List Char} (h : w.length < r.length) (y : List Char) :
    wbMatch w (r ++ y) = wbMatch w r := by
  induction w generalizing r with
  | nil =>
    cases r with
    | nil => simp at h
    | cons b r => simp [wbMatch, boundaryOK]
  | cons a w ih =>
    cases r with
    | nil => simp at h
    | cons b r =>
      show (a == b && wbMatch w (r ++ y)) = (a == b && wbMatch w r)
      rw [ih (by simpa using Nat.lt_of_succ_lt_succ h)]

theorem noExt_spec {w r : List Char} (h : noExt w r = true) (y : List Char) :
    wbMatch w (r ++ y) = false := by
  unfold noExt at h
  split at h
  · rw [wbMatch_append_right ‹_›]
    simpa using h
  · rename_i hlen
    cases hw : wbMatch w (r ++ y) with
    | false => rfl
    | true =>
      exfalso
      have hpre : r <+: w :=
        List.prefix_of_prefix_length_le (List.prefix_append r y) (wbMatch_isPrefixOf hw)
          (Nat.le_of_not_lt hlen)
      have h2 : r.isPrefixOf w = true := List.isPrefixOf_iff_prefix.mpr hpre
      simp [h2] at h

/-! ### Unfolding lemmas for the substitution scan -/

theorem subScan_nil (p : List Char) : subScan p [] = [] := rfl

theorem subScan_cons_none {p : List Char} {c : Char} {cs : List Char}
    (h : tryMatch p (c :: cs) = none) :
    subScan p (c :: cs) = c :: subScan (c :: p) cs := by
  simp [subScan, subScanA, h]

theorem subScan_cons_some {p : List Char} {c : Char} {cs k m : List Char}
    (h : tryMatch p (c :: cs) = some (k, m)) :
    subScan p (c :: cs) = replOf m ++ subScanA ((spanOf k).length - 1) (c :: p) cs := by
  simp [subScan, subScanA, h]

theorem subScanA_skip_append (u : List Char) : ∀ p s,
    subScanA u.length p (u ++ s) = subScanA 0 (u.reverse ++ p) s := by
  induction u with
  | nil => intro p s; simp
  | cons a u ih =>
    intro p s
    show subScanA (u.length + 1) p (a :: (u ++ s)) = _
    rw [show subScanA (u.length + 1) p (a :: (u ++ s)) = subScanA u.length (a :: p) (u ++ s) from rfl,
      ih (a :: p) s]
    simp

theorem spanOf_cons (k : List Char) :
    spanOf k = 'l' :: ("og_level::".toList ++ k) := by
  simp [spanOf]

theorem spanOf_length (k : List Char) : (spanOf k).length = 11 + k.length := by
  have h11 : ("log_level::".toList).length = 11 := rfl
  rw [spanOf, List.length_append, h11]

theorem subScan_append_span {p k m : List Char} (v : List Char)
    (h : tryMatch p (spanOf k ++ v) = some (k, m)) :
    subScan p (spanOf k ++ v) = replOf m ++ subScan ((spanOf k).reverse ++ p) v := by
  have hs : spanOf k ++ v = 'l' :: (("og_level::".toList ++ k) ++ v) := by
    rw [spanOf_cons]; rfl
  rw [hs] at h ⊢
  rw [subScan_cons_some h]
  have h10 : ("og_level::".toList).length = 10 := rfl
  have hlen : (spanOf k).length - 1 = ("og_level::".toList ++ k).length := by
    rw [spanOf_length, List.length_append, h10]
    omega
  rw [hlen, subScanA_skip_append]
  have : ("og_level::".toList ++ k).reverse ++ ('l' :: p) = (spanOf k).reverse ++ p := by
    rw [spanOf_cons]
    simp
  rw [this]
  rfl

/-! ### Lemmas about `findKey` and `tryMatch` -/

theorem findKey_some {tbl : List (List Char × List Char)} {s k m : List Char}
    (h : findKey tbl s = some (k, m)) :
    (k, m) ∈ tbl ∧ wbMatch (spanOf k) s = true := by
  induction tbl with
  | nil => simp [findKey] at h
  | cons e rest ih =>
    obtain ⟨k0, m0⟩ := e
    unfold findKey at h
    split at h
    · obtain ⟨h1, h2⟩ := Prod.mk.injEq .. ▸ Option.some.injEq .. ▸ h
      subst h1; subst h2
      exact ⟨List.mem_cons_self .., ‹_›⟩
    · obtain ⟨h1, h2⟩ := ih h
      exact ⟨List.mem_cons_of_mem _ h1, h2⟩

theorem findKey_none_of {tbl : List (List Char × List Char)} {s : List Char}
    (h : ∀ e ∈ tbl, wbMatch (spanOf e.1) s = false) : findKey tbl s = none := by
  induction tbl with
  | nil => rfl
  | cons e rest ih =>
    obtain ⟨k0, m0⟩ := e
    unfold findKey
    rw [h (k0, m0) (List.mem_cons_self ..)]
    exact ih fun e he => h e (List.mem_cons_of_mem _ he)

theorem tryMatch_none_ctx {p : List Char} (s : List Char) (h : ctxOK p = false) :
    tryMatch p s = none := by
  simp [tryMatch, h]

theorem tryMatch_none_textual {p s : List Char}
    (h : ∀ e ∈ LEVEL_MAPPINGS, wbMatch (spanOf e.1) s = false) : tryMatch p s = none := by
  unfold tryMatch
  split
  · exact findKey_none_of h
  · rfl

theorem tryMatch_some_parts {p s k m : List Char} (h : tryMatch p s = some (k, m)) :
    ctxOK p = true ∧ (k, m) ∈ LEVEL_MAPPINGS ∧ wbMatch (spanOf k) s = true := by
  unfold tryMatch at h
  split at h
  · exact ⟨‹_›, findKey_some h⟩
  · exact absurd h (by simp)

/-! ### The matched spans and their suffixes never match inside a replacement -/

theorem tails_tail_mem {x : List Char} {a : Char} {w : List Char}
    (h : (a :: w) ∈ x.tails) : w ∈ x.tails := by
  rw [List.mem_tails] at h ⊢
  exact (List.suffix_cons a w).trans h

theorem spanSuffixes_tail {a : Char} {w : List Char} (h : (a :: w) ∈ spanSuffixes) :
    w ∈ spanSuffixes := by
  rw [spanSuffixes, List.mem_flatMap] at h ⊢
  obtain ⟨e, he, hw⟩ := h
  exact ⟨e, he, tails_tail_mem hw⟩

theorem spanOf_mem_spanSuffixes {k m : List Char} (h : (k, m) ∈ LEVEL_MAPPINGS) :
    spanOf k ∈ spanSuffixes := by
  rw [spanSuffixes, List.mem_flatMap]
  exact ⟨(k, m), h, (List.mem_tails _ _).mpr List.suffix_rfl⟩

theorem noExt_repl : ∀ w ∈ spanSuffixes, ∀ e ∈ LEVEL_MAPPINGS,
    noExt w (replOf e.2) = true := by decide

theorem wbMatch_repl_false {w : List Char} (hw : w ∈ spanSuffixes) {k m : List Char}
    (hm : (k, m) ∈ LEVEL_MAPPINGS) (y : List Char) :
    wbMatch w (replOf m ++ y) = false :=
  noExt_spec (noExt_repl w hw (k, m) hm) y

/-! ### Context equivalence between the first and second pass -/

theorem ctxPats_tail {a : Char} {w : List Char} (h : (a :: w) ∈ ctxPats) : w ∈ ctxPats := by
  rw [ctxPats, List.mem_append] at h ⊢
  rcases h with h | h
  · exact Or.inl (tails_tail_mem h)
  · exact Or.inr (tails_tail_mem h)

theorem isPrefixOf_append_right {w r : List Char} (h : w.length ≤ r.length) (y : List Char) :
    w.isPrefixOf (r ++ y) = w.isPrefixOf r := by
  induction w generalizing r with
  | nil => simp [List.isPrefixOf]
  | cons a w ih =>
    cases r with
    | nil => simp at h
    | cons b r =>
      show (a == b && w.isPrefixOf (r ++ y)) = (a == b && w.isPrefixOf r)
      rw [ih (by simp at h; omega)]

theorem boundaryOK_append_ne {l : List Char} (h : l ≠ []) (p : List Char) :
    boundaryOK (l ++ p) = boundaryOK l := by
  cases l with
  | nil => exact absurd rfl h
  | cons a t => rfl

theorem spanOf_reverse_ne_nil (k : List Char) : (spanOf k).reverse ≠ [] := by
  rw [spanOf_cons]
  simp

theorem replOf_cons (m : List Char) :
    replOf m = 'l' :: ("og_level_v2::".toList ++ m) := by
  simp [replOf]

theorem replOf_reverse_ne_nil (m : List Char) : (replOf m).reverse ≠ [] := by
  rw [replOf_cons]
  simp

theorem span_repl_bnd : ∀ e ∈ LEVEL_MAPPINGS,
    boundaryOK (spanOf e.1).reverse = false ∧ boundaryOK (replOf e.2).reverse = false := by
  decide

theorem ctxPats_len : ∀ w ∈ ctxPats, ∀ e ∈ LEVEL_MAPPINGS,
    w.length ≤ (spanOf e.1).reverse.length ∧ w.length ≤ (replOf e.2).reverse.length := by
  decide

theorem ctxPats_pref_eq : ∀ w ∈ ctxPats, ∀ e ∈ LEVEL_MAPPINGS,
    w.isPrefixOf (spanOf e.1).reverse = w.isPrefixOf (replOf e.2).reverse := by
  decide

theorem Ctx.pref {p q : List Char} (h : Ctx p q) :
    ∀ w ∈ ctxPats, w.isPrefixOf p = w.isPrefixOf q := by
  induction h with
  | nil => intro w _; rfl
  | cons c hpq ih =>
    intro w hw
    cases w with
    | nil => rfl
    | cons a w =>
      rename_i p q
      show (a == c && w.isPrefixOf p) = (a == c && w.isPrefixOf q)
      rw [ih w (ctxPats_tail hw)]
  | repl k m hm hpq ih =>
    intro w hw
    obtain ⟨h1, h2⟩ := ctxPats_len w hw (k, m) hm
    rw [isPrefixOf_append_right h1, isPrefixOf_append_right h2]
    exact ctxPats_pref_eq w hw (k, m) hm

theorem Ctx.bnd {p q : List Char} (h : Ctx p q) : boundaryOK p = boundaryOK q := by
  cases h with
  | nil => rfl
  | cons c hpq => rfl
  | repl k m hm hpq =>
    rename_i p q
    rw [boundaryOK_append_ne (spanOf_reverse_ne_nil k) p,
      boundaryOK_append_ne (replOf_reverse_ne_nil m) q]
    obtain ⟨h1, h2⟩ := span_repl_bnd (k, m) hm
    rw [h1, h2]

theorem Ctx.ctxOK_eq {p q : List Char} (h : Ctx p q) : ctxOK p = ctxOK q := by
  have m5 : "_v2::".toList.reverse ∈ ctxPats := by
    rw [ctxPats, List.mem_append]
    exact Or.inr ((List.mem_tails _ _).mpr List.suffix_rfl)
  have m14 : "log_level_v2::".toList.reverse ∈ ctxPats := by
    rw [ctxPats, List.mem_append]
    exact Or.inl ((List.mem_tails _ _).mpr List.suffix_rfl)
  unfold ctxOK
  rw [h.bnd, h.pref _ m5, h.pref _ m14]

/-! ### A rescan finds no textual match in the output of the scan -/

theorem findKey_none_forward {tbl : List (List Char × List Char)} {s : List Char}
    (h : findKey tbl s = none) : ∀ e ∈ tbl, wbMatch (spanOf e.1) s = false := by
  induction tbl with
  | nil => intro e he; simp at he
  | cons e0 rest ih =>
    obtain ⟨k0, m0⟩ := e0
    unfold findKey at h
    split at h
    · exact absurd h (by simp)
    · rename_i hcond
      intro e he
      rcases List.mem_cons.mp he with rfl | he2
      · cases hv : wbMatch (spanOf (k0, m0).1) s with
        | false => rfl
        | true => exact absurd hv hcond
      · exact ih h e he2

theorem wbMatch_subScan (s : List Char) : ∀ p w, w ∈ spanSuffixes →
    wbMatch w s = false → wbMatch w (subScan p s) = false := by
  induction s with
  | nil => intro p w _ h; exact h
  | cons c cs ih =>
    intro p w hw h
    cases htm : tryMatch p (c :: cs) with
    | some km =>
      obtain ⟨k, m⟩ := km
      obtain ⟨-, hmem, -⟩ := tryMatch_some_parts htm
      rw [subScan_cons_some htm]
      exact wbMatch_repl_false hw hmem _
    | none =>
      rw [subScan_cons_none htm]
      cases w with
      | nil => exact h
      | cons a w =>
        show (a == c && wbMatch w (subScan (c :: p) cs)) = false
        have h2 : (a == c && wbMatch w cs) = false := h
        cases hac : a == c with
        | false => simp [hac]
        | true =>
          simp only [hac, Bool.true_and] at h2 ⊢
          exact ih (c :: p) w (spanSuffixes_tail hw) h2

/-! ### The second pass walks through a replacement without matching -/

theorem ctxOK_cons_word {a : Char} (h : wordChar a = true) (t : List Char) :
    ctxOK (a :: t) = false := by
  simp [ctxOK, boundaryOK, h]

theorem all_noExt_tryMatch {r2 : List Char} (y p : List Char)
    (h : (LEVEL_MAPPINGS.all fun e => noExt (spanOf e.1) r2) = true) :
    tryMatch p (r2 ++ y) = none := by
  apply tryMatch_none_textual
  intro e he
  exact noExt_spec (List.all_eq_true.mp h e he) y

theorem subScan_walk : ∀ (r2 r1rev q y : List Char), splitsOK r1rev r2 = true →
    subScanA 0 (r1rev ++ q) (r2 ++ y) = r2 ++ subScanA 0 (r2.reverse ++ (r1rev ++ q)) y := by
  intro r2
  induction r2 with
  | nil => intro r1rev q y _; simp
  | cons c r2 ih =>
    intro r1rev q y h
    have hrest : splitsOK (c :: r1rev) r2 = true := by
      cases r1rev with
      | nil => exact (Bool.and_eq_true .. |>.mp h).2
      | cons a t => exact (Bool.and_eq_true .. |>.mp h).2
    have hnone : tryMatch (r1rev ++ q) ((c :: r2) ++ y) = none := by
      cases r1rev with
      | nil =>
        have hhead : (LEVEL_MAPPINGS.all fun e => noExt (spanOf e.1) (c :: r2)) = true :=
          (Bool.and_eq_true .. |>.mp h).1
        exact all_noExt_tryMatch y _ hhead
      | cons a t =>
        have hhead : (wordChar a || LEVEL_MAPPINGS.all fun e => noExt (spanOf e.1) (c :: r2))
            = true := (Bool.and_eq_true .. |>.mp h).1
        rcases Bool.or_eq_true .. |>.mp hhead with hword | hall
        · exact tryMatch_none_ctx _ (ctxOK_cons_word hword _)
        · exact all_noExt_tryMatch y _ hall
    have hstep : subScanA 0 (r1rev ++ q) ((c :: r2) ++ y)
        = c :: subScanA 0 ((c :: r1rev) ++ q) (r2 ++ y) :=
      subScan_cons_none hnone
    rw [hstep, ih (c :: r1rev) q y hrest]
    simp

theorem subScan_walk' {r : List Char} (h : splitsOK [] r = true) (q y : List Char) :
    subScan q (r ++ y) = r ++ subScan (r.reverse ++ q) y := by
  have := subScan_walk r [] q y h
  simpa [subScan] using this

theorem replOf_splitsOK : ∀ e ∈ LEVEL_MAPPINGS, splitsOK [] (replOf e.2) = true := by decide

/-! ### Idempotence of the line rewrite -/

theorem subScan_idem_aux : ∀ (n : Nat) (s p q : List Char), s.length ≤ n → Ctx p q →
    subScan q (subScan p s) = subScan p s := by
  intro n
  induction n with
  | zero =>
    intro s p q hlen _
    have hs : s = [] := List.eq_nil_of_length_eq_zero (Nat.le_zero.mp hlen)
    subst hs
    rfl
  | succ n ih =>
    intro s p q hlen hctx
    cases s with
    | nil => rfl
    | cons c cs =>
      cases htm : tryMatch p (c :: cs) with
      | none =>
        rw [subScan_cons_none htm]
        have hq : tryMatch q (c :: subScan (c :: p) cs) = none := by
          by_cases hcq : ctxOK q = true
          · have hcp : ctxOK p = true := hctx.ctxOK_eq ▸ hcq
            have hfs : findSpan (c :: cs) = none := by
              unfold tryMatch at htm
              rwa [if_pos hcp] at htm
            have hall := findKey_none_forward hfs
            apply tryMatch_none_textual
            intro e he
            have := wbMatch_subScan (c :: cs) p (spanOf e.1)
              (spanOf_mem_spanSuffixes (by rwa [show ((e.1, e.2) : List Char × List Char) = e from rfl]))
              (hall e he)
            rwa [subScan_cons_none htm] at this
          · exact tryMatch_none_ctx _ (Bool.eq_false_iff.mpr hcq)
        rw [subScan_cons_none hq]
        congr 1
        exact ih cs (c :: p) (c :: q) (Nat.le_of_succ_le_succ (by simpa using hlen)) (hctx.cons c)
      | some km =>
        obtain ⟨k, m⟩ := km
        obtain ⟨hcp, hmem, hwb⟩ := tryMatch_some_parts htm
        obtain ⟨r, hr⟩ := wbMatch_isPrefixOf hwb
        rw [← hr] at htm ⊢
        rw [subScan_append_span r htm]
        rw [subScan_walk' (replOf_splitsOK (k, m) hmem) q _]
        congr 1
        have hlen2 : r.length ≤ n := by
          have hl := congrArg List.length hr
          simp only [List.length_append, List.length_cons, spanOf_length] at hl
          have hcs : cs.length + 1 ≤ n + 1 := by simpa using hlen
          omega
        exact ih r _ _ hlen2 (hctx.repl k m hmem)

theorem subScan_idem (s : List Char) : subScan [] (subScan [] s) = subScan [] s :=
  subScan_idem_aux s.length s [] [] le_rfl Ctx.nil

/-! ### Splitting into lines and joining them back -/

theorem splitNl_ne_nil (s : List Char) : splitNl s ≠ [] := by
  induction s with
  | nil => simp [splitNl]
  | cons c cs ih =>
    by_cases hc : c = '\n'
    · simp [splitNl, hc]
    · simp only [splitNl, if_neg hc]
      cases hsp : splitNl cs <;> simp

theorem mem_splitNl_no_nl (s : List Char) : ∀ l ∈ splitNl s, '\n' ∉ l := by
  induction s with
  | nil =>
    intro l hl
    simp [splitNl] at hl
    simp [hl]
  | cons c cs ih =>
    intro l hl
    by_cases hc : c = '\n'
    · rw [splitNl, if_pos hc] at hl
      rcases List.mem_cons.mp hl with rfl | h2
      · simp
      · exact ih l h2
    · rw [splitNl, if_neg hc] at hl
      cases hsp : splitNl cs with
      | nil => exact absurd hsp (splitNl_ne_nil cs)
      | cons l0 ls =>
        rw [hsp] at hl
        rcases List.mem_cons.mp hl with rfl | h2
        · intro hmem
          rcases List.mem_cons.mp hmem with h3 | h3
          · exact hc h3.symm
          · exact ih l0 (hsp ▸ List.mem_cons_self ..) h3
        · exact ih l (hsp ▸ List.mem_cons_of_mem _ h2)

theorem joinNl_cons_cons (c : Char) (l0 : List Char) (ls : List (List Char)) :
    joinNl ((c :: l0) :: ls) = c :: joinNl (l0 :: ls) := by
  cases ls <;> simp [joinNl]

theorem joinNl_splitNl (s : List Char) : joinNl (splitNl s) = s := by
  induction s with
  | nil => rfl
  | cons c cs ih =>
    by_cases hc : c = '\n'
    · rw [splitNl, if_pos hc]
      cases hsp : splitNl cs with
      | nil => exact absurd hsp (splitNl_ne_nil cs)
      | cons l0 ls =>
        rw [hsp] at ih
        show joinNl ([] :: l0 :: ls) = c :: cs
        rw [show joinNl ([] :: l0 :: ls) = [] ++ '\n' :: joinNl (l0 :: ls) from rfl]
        rw [List.nil_append, ih, hc]
    · rw [splitNl, if_neg hc]
      cases hsp : splitNl cs with
      | nil => exact absurd hsp (splitNl_ne_nil cs)
      | cons l0 ls =>
        rw [hsp] at ih
        rw [joinNl_cons_cons, ih]

theorem splitNl_no_nl {l : List Char} (h : '\n' ∉ l) : splitNl l = [l] := by
  induction l with
  | nil => rfl
  | cons c cs ih =>
    have hc : ¬(c = '\n') := fun he => h (he ▸ List.mem_cons_self ..)
    rw [splitNl, if_neg hc, ih fun he => h (List.mem_cons_of_mem _ he)]

theorem splitNl_append_nl {l : List Char} (h : '\n' ∉ l) (rest : List Char) :
    splitNl (l ++ '\n' :: rest) = l :: splitNl rest := by
  induction l with
  | nil => simp [splitNl]
  | cons c cs ih =>
    have hc : ¬(c = '\n') := fun he => h (he ▸ List.mem_cons_self ..)
    rw [List.cons_append, splitNl, if_neg hc,
      ih fun he => h (List.mem_cons_of_mem _ he)]

theorem splitNl_joinNl : ∀ (ls : List (List Char)), ls ≠ [] →
    (∀ l ∈ ls, '\n' ∉ l) → splitNl (joinNl ls) = ls := by
  intro ls
  induction ls with
  | nil => intro h; exact absurd rfl h
  | cons l ls ih =>
    intro _ hnl
    cases ls with
    | nil => exact splitNl_no_nl (hnl l (List.mem_cons_self ..))
    | cons l1 ls2 =>
      rw [show joinNl (l :: l1 :: ls2) = l ++ '\n' :: joinNl (l1 :: ls2) from rfl]
      rw [splitNl_append_nl (hnl l (List.mem_cons_self ..))]
      rw [ih (by simp) fun x hx => hnl x (List.mem_cons_of_mem _ hx)]

/-! ### The scan introduces no newline -/

theorem no_nl_repl : ∀ e ∈ LEVEL_MAPPINGS, ('\n' : Char) ∉ replOf e.2 := by decide

theorem subScanA_no_nl (s : List Char) : ∀ skip p, '\n' ∉ s → '\n' ∉ subScanA skip p s := by
  induction s with
  | nil => intro skip p _; simp [subScanA]
  | cons c cs ih =>
    intro skip p h
    have hc : ('\n' : Char) ≠ c := fun he => h (he ▸ List.mem_cons_self ..)
    have hcs : '\n' ∉ cs := fun he => h (List.mem_cons_of_mem _ he)
    cases skip with
    | succ n => exact ih n (c :: p) hcs
    | zero =>
      cases htm : tryMatch p (c :: cs) with
      | none =>
        rw [show subScanA 0 p (c :: cs) = c :: subScanA 0 (c :: p) cs from by
          simp [subScanA, htm]]
        intro hmem
        rcases List.mem_cons.mp hmem with h3 | h3
        · exact hc h3
        · exact ih 0 (c :: p) hcs h3
      | some km =>
        obtain ⟨k, m⟩ := km
        obtain ⟨-, hmem, -⟩ := tryMatch_some_parts htm
        rw [show subScanA 0 p (c :: cs)
            = replOf m ++ subScanA ((spanOf k).length - 1) (c :: p) cs from by
          simp [subScanA, htm]]
        intro hin
        rcases List.mem_append.mp hin with h3 | h3
        · exact no_nl_repl (k, m) hmem h3
        · exact ih _ (c :: p) hcs h3

theorem subScan_no_nl {s : List Char} (h : '\n' ∉ s) (p : List Char) :
    '\n' ∉ subScan p s :=
  subScanA_no_nl s 0 p h

/-! ### The per-line pass -/

theorem migrate_lines_fst (ls : List (List Char)) : ∀ i,
    (migrate_lines i ls).1 = ls.map (fun l => subScan [] l) := by
  induction ls with
  | nil => intro i; rfl
  | cons l ls ih =>
    intro i
    show (migrate_line l).1 :: (migrate_lines (i + 1) ls).1 = _
    rw [ih (i + 1)]
    rfl

theorem migrate_lines_snd_nil (ls : List (List Char)) : ∀ i,
    ((migrate_lines i ls).2 = [] ↔ ∀ l ∈ ls, subScan [] l = l) := by
  induction ls with
  | nil => intro i; simp [migrate_lines]
  | cons l ls ih =>
    intro i
    show (if (migrate_line l).2 then _ :: (migrate_lines (i + 1) ls).2
          else (migrate_lines (i + 1) ls).2) = [] ↔ _
    cases hch : (migrate_line l).2 with
    | true =>
      simp only [if_pos rfl]
      constructor
      · intro h; exact absurd h (by simp)
      · intro h
        have := h l (List.mem_cons_self ..)
        have hne : (subScan [] l != l) = true := hch
        rw [bne_iff_ne] at hne
        exact absurd this hne
    | false =>
      simp only [Bool.false_eq_true, if_neg (fun h => h)]
      rw [ih (i + 1)]
      constructor
      · intro h x hx
        rcases List.mem_cons.mp hx with rfl | h2
        · have : (subScan [] x != x) = false := hch
          simpa using this
        · exact h x h2
      · intro h x hx
        exact h x (List.mem_cons_of_mem _ hx)

/-! ### Auxiliary `insertIdx` facts -/

theorem insertIdx_ne_nil {α : Type} {l : List α} (hl : l ≠ []) (n : Nat) (a : α) :
    l.insertIdx n a ≠ [] := by
  cases l with
  | nil => exact absurd rfl hl
  | cons b t =>
    cases n with
    | zero => simp [List.insertIdx_zero]
    | succ n => simp [List.insertIdx_succ_cons]

theorem mem_insertIdx_cases {α : Type} {x a : α} : ∀ {l : List α} {n : Nat},
    x ∈ l.insertIdx n a → x = a ∨ x ∈ l := by
  intro l
  induction l with
  | nil =>
    intro n h
    cases n with
    | zero =>
      rw [List.insertIdx_zero] at h
      rcases List.mem_cons.mp h with rfl | h2
      · exact Or.inl rfl
      · exact absurd h2 (by simp)
    | succ n =>
      rw [List.insertIdx_succ_nil] at h
      exact absurd h (by simp)
  | cons b t ih =>
    intro n h
    cases n with
    | zero =>
      rw [List.insertIdx_zero] at h
      rcases List.mem_cons.mp h with rfl | h2
      · exact Or.inl rfl
      · exact Or.inr h2
    | succ n =>
      rw [List.insertIdx_succ_cons] at h
      rcases List.mem_cons.mp h with rfl | h2
      · exact Or.inr (List.mem_cons_self ..)
      · rcases ih h2 with h3 | h3
        · exact Or.inl h3
        · exact Or.inr (List.mem_cons_of_mem _ h3)

/-! ### Unfolding forms of `migrate_content` and `add_log_level_include` -/

theorem migrate_content_def (content : List Char) :
    migrate_content content
      = (if !(migrate_lines 1 (splitNl content)).2.isEmpty
            && needs_include_update (joinNl (migrate_lines 1 (splitNl content)).1)
         then add_log_level_include (joinNl (migrate_lines 1 (splitNl content)).1)
         else joinNl (migrate_lines 1 (splitNl content)).1,
         (migrate_lines 1 (splitNl content)).2) := rfl

theorem add_log_level_include_def (content : List Char) :
    add_log_level_include content
      = joinNl (if strSearch include_line content then splitNl content
                else (splitNl content).insertIdx (addInsertIdx (splitNl content)) include_line) :=
  rfl

/-! ### File-level idempotence (claim C1) -/

theorem include_line_fixed : subScan [] include_line = include_line := by decide

theorem include_line_no_nl : ('\n' : Char) ∉ include_line := by decide

theorem migrate_content_fixed {L : List (List Char)} (hne : L ≠ [])
    (hfix : ∀ l ∈ L, subScan [] l = l) (hnl : ∀ l ∈ L, '\n' ∉ l) :
    migrate_content (joinNl L) = (joinNl L, []) := by
  have hsplit : splitNl (joinNl L) = L := splitNl_joinNl L hne hnl
  have hsnd : (migrate_lines 1 L).2 = [] := (migrate_lines_snd_nil L 1).mpr hfix
  have hfst : (migrate_lines 1 L).1 = L := by
    rw [migrate_lines_fst]
    exact (List.map_congr_left hfix).trans (List.map_id L)
  rw [migrate_content_def, hsplit, hsnd, hfst]
  simp

theorem add_joinNl_form (NL : List (List Char)) (hne : NL ≠ []) (hnl : ∀ l ∈ NL, '\n' ∉ l) :
    ∃ L : List (List Char), add_log_level_include (joinNl NL) = joinNl L ∧ L ≠ []
      ∧ ∀ l ∈ L, l = include_line ∨ l ∈ NL := by
  have hsplit : splitNl (joinNl NL) = NL := splitNl_joinNl NL hne hnl
  rw [add_log_level_include_def, hsplit]
  cases hss : strSearch include_line (joinNl NL) with
  | true =>
    exact ⟨NL, by simp, hne, fun l hl => Or.inr hl⟩
  | false =>
    refine ⟨NL.insertIdx (addInsertIdx NL) include_line, by simp,
      insertIdx_ne_nil hne _ _, fun l hl => ?_⟩
    rcases mem_insertIdx_cases hl with h | h
    · exact Or.inl h
    · exact Or.inr h

/-- C1.  Idempotence of the per-file migration: applying `migrate_content`
to its own output records zero changes and returns the content unchanged. -/
theorem C1_migration_idempotent (content : List Char) :
    (migrate_content (migrate_content content).1).2 = []
      ∧ (migrate_content (migrate_content content).1).1 = (migrate_content content).1 := by
  have hNL : (migrate_lines 1 (splitNl content)).1
      = (splitNl content).map (fun l => subScan [] l) := migrate_lines_fst _ 1
  have hNLne : (migrate_lines 1 (splitNl content)).1 ≠ [] := by
    rw [hNL]
    intro h
    exact splitNl_ne_nil content (List.map_eq_nil_iff.mp h)
  have hNLfix : ∀ l ∈ (migrate_lines 1 (splitNl content)).1, subScan [] l = l := by
    rw [hNL]
    intro l hl
    obtain ⟨l0, _, rfl⟩ := List.mem_map.mp hl
    exact subScan_idem l0
  have hNLnl : ∀ l ∈ (migrate_lines 1 (splitNl content)).1, '\n' ∉ l := by
    rw [hNL]
    intro l hl
    obtain ⟨l0, hl0, rfl⟩ := List.mem_map.mp hl
    exact subScan_no_nl (mem_splitNl_no_nl content l0 hl0) []
  rw [migrate_content_def content]
  cases hcond : (!(migrate_lines 1 (splitNl content)).2.isEmpty
      && needs_include_update (joinNl (migrate_lines 1 (splitNl content)).1)) with
  | true =>
    simp only [hcond, if_true]
    obtain ⟨L, hadd, hLne, hLmem⟩ :=
      add_joinNl_form (migrate_lines 1 (splitNl content)).1 hNLne hNLnl
    have hLfix : ∀ l ∈ L, subScan [] l = l := by
      intro l hl
      rcases hLmem l hl with rfl | h2
      · exact include_line_fixed
      · exact hNLfix l h2
    have hLnl : ∀ l ∈ L, '\n' ∉ l := by
      intro l hl
      rcases hLmem l hl with rfl | h2
      · exact include_line_no_nl
      · exact hNLnl l h2
    have hfixed := migrate_content_fixed hLne hLfix hLnl
    show (migrate_content (add_log_level_include _)).2 = []
      ∧ (migrate_content (add_log_level_include _)).1 = add_log_level_include _
    rw [hadd, hfixed]
    exact ⟨rfl, rfl⟩
  | false =>
    simp only [hcond, Bool.false_eq_true, if_false]
    have hfixed := migrate_content_fixed hNLne hNLfix hNLnl
    show (migrate_content (joinNl _)).2 = [] ∧ (migrate_content (joinNl _)).1 = joinNl _
    rw [hfixed]
    exact ⟨rfl, rfl⟩

/-! ### Mapping fidelity (claim C2) -/

theorem noExt_self (x : List Char) : noExt x x = false := by
  unfold noExt
  rw [if_neg (lt_irrefl _)]
  simp [List.isPrefixOf_iff_prefix]

theorem span_pairwise : ∀ e1 ∈ LEVEL_MAPPINGS, ∀ e2 ∈ LEVEL_MAPPINGS,
    e1 = e2 ∨ noExt (spanOf e1.1) (spanOf e2.1) = true := by decide

theorem findKey_self {tbl : List (List Char × List Char)} {k m v : List Char}
    (hmem : (k, m) ∈ tbl)
    (hpair : ∀ e ∈ tbl, e = (k, m) ∨ noExt (spanOf e.1) (spanOf k) = true)
    (hb : boundaryOK v = true) :
    findKey tbl (spanOf k ++ v) = some (k, m) := by
  induction tbl with
  | nil => simp at hmem
  | cons e rest ih =>
    obtain ⟨k0, m0⟩ := e
    rcases hpair (k0, m0) (List.mem_cons_self ..) with heq | hno
    · obtain ⟨h1, h2⟩ := Prod.mk.injEq .. ▸ heq
      subst h1; subst h2
      unfold findKey
      rw [wbMatch_self_append, hb]
      rfl
    · unfold findKey
      rw [noExt_spec hno v]
      show findKey rest (spanOf k ++ v) = some (k, m)
      rcases List.mem_cons.mp hmem with heq2 | hmem2
      · obtain ⟨h1, h2⟩ := Prod.mk.injEq .. ▸ heq2.symm
        subst h1; subst h2
        rw [noExt_self] at hno
        exact absurd hno (by simp)
      · exact ih hmem2 fun e he => hpair e (List.mem_cons_of_mem _ he)

theorem subScan_step_spec {k m p : List Char} (v : List Char)
    (hmem : (k, m) ∈ LEVEL_MAPPINGS) (hctx : ctxOK p = true) (hb : boundaryOK v = true) :
    subScan p (spanOf k ++ v) = replOf m ++ subScan ((spanOf k).reverse ++ p) v := by
  apply subScan_append_span
  unfold tryMatch
  rw [if_pos hctx]
  unfold findSpan
  apply findKey_self hmem ?_ hb
  intro e he
  exact span_pairwise e he (k, m) hmem

/-- C2.  Mapping fidelity: a qualified occurrence `log_level::<key>` in
matching context is replaced by exactly `log_level_v2::<mapped>`; and the
table maps `warning` to `warn` only (never to `warning`). -/
theorem C2_mapping_fidelity :
    (∀ (k m p v : List Char), (k, m) ∈ LEVEL_MAPPINGS → ctxOK p = true →
        boundaryOK v = true →
        subScan p (spanOf k ++ v) = replOf m ++ subScan ((spanOf k).reverse ++ p) v)
      ∧ (∀ m : List Char, ("warning".toList, m) ∈ LEVEL_MAPPINGS ↔ m = "warn".toList) := by
  refine ⟨fun _ _ _ v hmem hctx hb => subScan_step_spec v hmem hctx hb, fun m => ?_⟩
  constructor
  · intro h
    simp only [LEVEL_MAPPINGS, List.mem_cons, Prod.mk.injEq] at h
    rcases h with ⟨h1, h2⟩ | ⟨h1, h2⟩ | ⟨h1, h2⟩ | ⟨h1, h2⟩ | ⟨h1, h2⟩ | ⟨h1, h2⟩ | h
    · exact absurd h1 (by decide)
    · exact absurd h1 (by decide)
    · exact absurd h1 (by decide)
    · exact h2
    · exact absurd h1 (by decide)
    · exact absurd h1 (by decide)
    · exact absurd h (by simp)
  · rintro rfl
    decide

/-- Witness for C2 at the concrete occurrence `log_level::warning` followed
by `;` in empty context. -/
theorem C2_mapping_fidelity_witness :
    subScan [] (spanOf "warning".toList ++ ";".toList)
      = replOf "warn".toList ++ subScan ((spanOf "warning".toList).reverse ++ []) ";".toList :=
  C2_mapping_fidelity.1 "warning".toList "warn".toList [] ";".toList
    (by decide) (by decide) (by decide)

/-! ### The MigrationResult invariant (claim C4) -/

theorem migrate_file_skip {filepath : List Char} (h : (should_skip_file filepath).1 = true)
    (data : FileData) :
    migrate_file filepath data
      = { path := filepath, skipped := true, skip_reason := (should_skip_file filepath).2 } := by
  unfold migrate_file
  rw [if_pos h]

theorem migrate_file_noskip {filepath : List Char} (h : (should_skip_file filepath).1 = false) :
    ∀ data, migrate_file filepath data
      = match data with
        | .unreadable => { path := filepath, error := some "Failed to read file".toList }
        | .readable c => { path := filepath, original_content := c,
                           new_content := (migrate_content c).1,
                           changes := (migrate_content c).2 } := by
  intro data
  unfold migrate_file
  rw [if_neg (by simp [h])]

theorem map_eq_self_forall {f : List Char → List Char} :
    ∀ {ls : List (List Char)}, ls.map f = ls → ∀ l ∈ ls, f l = l := by
  intro ls
  induction ls with
  | nil => intro _ l hl; simp at hl
  | cons x ls ih =>
    intro h l hl
    obtain ⟨h1, h2⟩ := List.cons_eq_cons.mp h
    rcases List.mem_cons.mp hl with rfl | h3
    · exact h1
    · exact ih h2 l h3

theorem findInsertIdx_le : ∀ (ls : List (List Char)) (i : Nat) (acc : Option Nat),
    (∀ a, acc = some a → a ≤ i) → ∀ r, findInsertIdx i acc ls = some r → r ≤ i + ls.length := by
  intro ls
  induction ls with
  | nil =>
    intro i acc hacc r h
    exact Nat.le_trans (hacc r h) (by omega)
  | cons l ls ih =>
    intro i acc hacc r h
    have hacc2 : ∀ a, (if lineHasKcenon l then some (i + 1)
        else if "#include".toList.isPrefixOf l && acc.isNone then some (i + 1)
        else acc) = some a → a ≤ i + 1 := by
      intro a ha
      split at ha
      · cases ha
        omega
      · split at ha
        · cases ha
          omega
        · exact Nat.le_trans (hacc a ha) (by omega)
    have h2 := ih (i + 1) _ hacc2 r h
    simp only [List.length_cons]
    omega

theorem findGuardIdx_le : ∀ (ls : List (List Char)) (i r : Nat),
    findGuardIdx i ls = some r → r ≤ i + ls.length := by
  intro ls
  induction ls with
  | nil => intro i r h; simp [findGuardIdx] at h
  | cons l ls ih =>
    intro i r h
    unfold findGuardIdx at h
    split at h
    · obtain rfl := Option.some.injEq .. ▸ h
      simp only [List.length_cons]
      omega
    · have := ih (i + 1) r h
      simp only [List.length_cons]
      omega

theorem addInsertIdx_le (ls : List (List Char)) : addInsertIdx ls ≤ ls.length := by
  unfold addInsertIdx
  cases h1 : findInsertIdx 0 none ls with
  | some i => simpa using findInsertIdx_le ls 0 none (by simp) i h1
  | none =>
    cases h2 : findGuardIdx 0 ls with
    | some i => simpa using findGuardIdx_le ls 0 i h2
    | none => exact Nat.zero_le _

theorem migrate_content_changes_iff (c : List Char) :
    ¬(migrate_content c).2.isEmpty = true ↔ (migrate_content c).1 ≠ c := by
  have hNL : (migrate_lines 1 (splitNl c)).1
      = (splitNl c).map (fun l => subScan [] l) := migrate_lines_fst _ 1
  have hNLne : (migrate_lines 1 (splitNl c)).1 ≠ [] := by
    rw [hNL]
    intro h
    exact splitNl_ne_nil c (List.map_eq_nil_iff.mp h)
  have hNLnl : ∀ l ∈ (migrate_lines 1 (splitNl c)).1, '\n' ∉ l := by
    rw [hNL]
    intro l hl
    obtain ⟨l0, hl0, rfl⟩ := List.mem_map.mp hl
    exact subScan_no_nl (mem_splitNl_no_nl c l0 hl0) []
  cases hch : (migrate_lines 1 (splitNl c)).2 with
  | nil =>
    have hfix : ∀ l ∈ splitNl c, subScan [] l = l := (migrate_lines_snd_nil _ 1).mp hch
    have hfst : (migrate_lines 1 (splitNl c)).1 = splitNl c := by
      rw [hNL]
      exact (List.map_congr_left hfix).trans (List.map_id _)
    rw [migrate_content_def, hch, hfst]
    simp [joinNl_splitNl]
  | cons ch0 chs =>
    have hNLneq : (migrate_lines 1 (splitNl c)).1 ≠ splitNl c := by
      rw [hNL]
      intro heq
      have hfix := map_eq_self_forall heq
      have : (migrate_lines 1 (splitNl c)).2 = [] := (migrate_lines_snd_nil _ 1).mpr hfix
      rw [hch] at this
      exact absurd this (by simp)
    have hjoin_ne : joinNl (migrate_lines 1 (splitNl c)).1 ≠ c := by
      intro heq
      apply hNLneq
      have := congrArg splitNl heq
      rwa [splitNl_joinNl _ hNLne hNLnl] at this
    rw [migrate_content_def, hch]
    constructor
    · intro _
      cases hcond : (!(ch0 :: chs).isEmpty
          && needs_include_update (joinNl (migrate_lines 1 (splitNl c)).1)) with
      | false =>
        simp only [hcond, Bool.false_eq_true, if_false]
        exact hjoin_ne
      | true =>
        simp only [hcond, if_true]
        rw [add_log_level_include_def,
          splitNl_joinNl _ hNLne hNLnl]
        cases hss : strSearch include_line (joinNl (migrate_lines 1 (splitNl c)).1) with
        | true =>
          rw [if_pos rfl]
          intro heq
          apply hNLneq
          have := congrArg splitNl heq
          rwa [splitNl_joinNl _ hNLne hNLnl] at this
        | false =>
          rw [if_neg (by simp)]
          intro heq
          have hins_nl : ∀ l ∈ (migrate_lines 1 (splitNl c)).1.insertIdx
              (addInsertIdx (migrate_lines 1 (splitNl c)).1) include_line, '\n' ∉ l := by
            intro l hl
            rcases mem_insertIdx_cases hl with rfl | h2
            · exact include_line_no_nl
            · exact hNLnl l h2
          have hlen := congrArg (fun s => (splitNl s).length) heq
          simp only at hlen
          rw [splitNl_joinNl _ (insertIdx_ne_nil hNLne _ _) hins_nl] at hlen
          rw [List.length_insertIdx _ _ (addInsertIdx_le _)] at hlen
          have hmap : (migrate_lines 1 (splitNl c)).1.length = (splitNl c).length := by
            rw [hNL, List.length_map]
          omega
    · intro _
      simp

/-- C4.  The MigrationResult invariant: a skipped result has no changes and
its file is never written by the runner, and the changes list is non-empty
exactly when the new content differs from the original content. -/
theorem C4_result_invariant (filepath : List Char) (data : FileData) :
    ((migrate_file filepath data).skipped = true →
        (migrate_file filepath data).changes = []
          ∧ ∀ (args : Args) (fs : FS) (stats : RunStats),
              (stepFile args (fs, stats) filepath).1 = fs)
      ∧ (¬(migrate_file filepath data).changes.isEmpty = true
          ↔ (migrate_file filepath data).new_content
              ≠ (migrate_file filepath data).original_content) := by
  cases hsk : (should_skip_file filepath).1 with
  | true =>
    rw [migrate_file_skip hsk data]
    constructor
    · intro _
      refine ⟨rfl, fun args fs stats => ?_⟩
      show (stepFile args (fs, stats) filepath).1 = fs
      unfold stepFile
      rw [migrate_file_skip hsk (fs filepath)]
      rfl
    · simp
  | false =>
    rw [migrate_file_noskip hsk data]
    cases data with
    | unreadable => exact ⟨fun h => absurd h (by simp), by simp⟩
    | readable c =>
      refine ⟨fun h => absurd h (by simp), ?_⟩
      show ¬(migrate_content c).2.isEmpty = true ↔ (migrate_content c).1 ≠ c
      exact migrate_content_changes_iff c

/-- Witness for C4 at a skipped path and at a concrete readable file. -/
theorem C4_result_invariant_witness :
    ((migrate_file "a/logger_interface.h".toList
        (FileData.readable "x = log_level::error;".toList)).changes = []
      ∧ (stepFile ⟨false, true⟩ ((fun _ => FileData.unreadable), {})
          "a/logger_interface.h".toList).1 = (fun _ => FileData.unreadable))
    ∧ (¬(migrate_file "b.cpp".toList
          (FileData.readable "x = log_level::error;".toList)).changes.isEmpty = true
        ↔ (migrate_file "b.cpp".toList
            (FileData.readable "x = log_level::error;".toList)).new_content
          ≠ (migrate_file "b.cpp".toList
              (FileData.readable "x = log_level::error;".toList)).original_content) := by
  constructor
  · have h := (C4_result_invariant "a/logger_interface.h".toList
      (FileData.readable "x = log_level::error;".toList)).1 (by decide)
    exact ⟨h.1, h.2 ⟨false, true⟩ (fun _ => FileData.unreadable) {}⟩
  · exact (C4_result_invariant "b.cpp".toList
      (FileData.readable "x = log_level::error;".toList)).2

/-! ### Path-not-found behaviour (claim C9) -/

/-- C9.  A non-existent root path exits with code 1, leaves every file
untouched, records nothing, and behaves as if no file had been discovered. -/
theorem C9_path_not_found (args : Args) (files : List (List Char)) (fs : FS) :
    (mainRun args false files fs).exit_code = 1
      ∧ (∀ p, (mainRun args false files fs).fs p = fs p)
      ∧ (mainRun args false files fs).stats = {}
      ∧ mainRun args false files fs = mainRun args false [] fs :=
  ⟨rfl, fun _ => rfl, rfl, rfl⟩

/-! ### Dry-run purity (claim C7) -/

theorem stepFile_eq (args : Args) (fs : FS) (stats : RunStats) (q : List Char) :
    stepFile args (fs, stats) q
      = match (migrate_file q (fs q)).error with
        | some msg => (fs, { stats with errors := stats.errors ++ [errorLine q msg] })
        | none =>
          if (migrate_file q (fs q)).skipped then
            (fs, { stats with files_skipped := stats.files_skipped + 1 })
          else if (migrate_file q (fs q)).changes.isEmpty then (fs, stats)
          else if args.dry_run then
            (fs, { stats with files_changed := stats.files_changed + 1, total_changes := stats.total_changes + (migrate_file q (fs q)).changes.length })
          else
            (fsUpdate (if args.backup then
                fsUpdate fs (q ++ bakSuffix)
                  (FileData.readable (migrate_file q (fs q)).original_content)
              else fs) q (FileData.readable (migrate_file q (fs q)).new_content),
             { stats with files_changed := stats.files_changed + 1, total_changes := stats.total_changes + (migrate_file q (fs q)).changes.length }) := rfl

theorem stepFile_dry_fs {args : Args} (h : args.dry_run = true) (st : FS × RunStats)
    (q : List Char) : (stepFile args st q).1 = st.1 := by
  obtain ⟨fs, stats⟩ := st
  rw [stepFile_eq]
  cases herr : (migrate_file q (fs q)).error with
  | some msg => rfl
  | none =>
    repeat' split
    all_goals rfl

theorem foldl_dry_fs {args : Args} (h : args.dry_run = true) :
    ∀ (files : List (List Char)) (st : FS × RunStats),
      (files.foldl (stepFile args) st).1 = st.1 := by
  intro files
  induction files with
  | nil => intro st; rfl
  | cons q files ih =>
    intro st
    rw [List.foldl_cons, ih (stepFile args st q)]
    exact stepFile_dry_fs h st q

/-- C7.  Dry-run purity: with `--dry-run` no file is written and no backup
is created; the filesystem is pointwise unchanged by the run. -/
theorem C7_dry_run_purity {args : Args} (h : args.dry_run = true)
    (pathExists : Bool) (files : List (List Char)) (fs : FS) (p : List Char) :
    (mainRun args pathExists files fs).fs p = fs p := by
  cases pathExists with
  | false => rfl
  | true =>
    show ((files.foldl (stepFile args) (fs, {})).1) p = fs p
    rw [foldl_dry_fs h files (fs, {})]

/-- Witness for C7: a dry run over one file with a migratable line leaves
that file's state unchanged. -/
theorem C7_dry_run_purity_witness :
    (mainRun ⟨true, true⟩ true ["a.cpp".toList]
        (fun _ => FileData.readable "x = log_level::error;".toList)).fs "a.cpp".toList
      = (fun _ => FileData.readable "x = log_level::error;".toList) "a.cpp".toList :=
  C7_dry_run_purity rfl true ["a.cpp".toList] _ "a.cpp".toList

/-! ### The skip decision (claim C10) -/

theorem basename_no_slash (p : List Char) : ∀ c ∈ basename p, c ≠ '/' := by
  intro c hc
  have h2 : c ∈ p.reverse.takeWhile (fun c => c != '/') := by
    rw [basename] at hc
    exact List.mem_reverse.mp hc
  have := List.mem_takeWhile_imp h2
  simpa using this

theorem takeWhile_all {pr : Char → Bool} : ∀ {l : List Char}, (∀ c ∈ l, pr c = true) →
    l.takeWhile pr = l := by
  intro l
  induction l with
  | nil => intro _; rfl
  | cons c cs ih =>
    intro h
    rw [List.takeWhile_cons, h c (List.mem_cons_self ..), if_pos rfl,
      ih fun x hx => h x (List.mem_cons_of_mem _ hx)]

theorem basename_of_no_slash {l : List Char} (h : ∀ c ∈ l, c ≠ '/') : basename l = l := by
  rw [basename, takeWhile_all, List.reverse_reverse]
  intro c hc
  simpa using h c (List.mem_reverse.mp hc)

theorem basename_idem (p : List Char) : basename (basename p) = basename p :=
  basename_of_no_slash (basename_no_slash p)

/-- C10.  The skip decision is a pure substring test on the base name only:
a file is skipped exactly when its base name contains `logger_interface.h`
or `thread_logger.h` as a substring; the first matching pattern supplies the
reason, and the decision depends only on the base name (never on the file
content, which `should_skip_file` does not even receive). -/
theorem C10_skip_basename_substring (filepath : List Char) :
    ((should_skip_file filepath).1
        = (strSearch "logger_interface.h".toList (basename filepath)
            || strSearch "thread_logger.h".toList (basename filepath)))
      ∧ (strSearch "logger_interface.h".toList (basename filepath) = true →
          (should_skip_file filepath).2
            = "Matches skip pattern: logger_interface\\.h".toList)
      ∧ (strSearch "logger_interface.h".toList (basename filepath) = false →
          strSearch "thread_logger.h".toList (basename filepath) = true →
          (should_skip_file filepath).2 = "Matches skip pattern: thread_logger\\.h".toList)
      ∧ should_skip_file filepath = should_skip_file (basename filepath) := by
  have hr1 : regexLiteral "logger_interface\\.h".toList = "logger_interface.h".toList := by decide
  have hr2 : regexLiteral "thread_logger\\.h".toList = "thread_logger.h".toList := by decide
  have hbase : should_skip_file filepath = should_skip_file (basename filepath) := by
    unfold should_skip_file
    rw [basename_idem]
  have hloop : should_skip_file filepath
      = (if strSearch "logger_interface.h".toList (basename filepath) then
          (true, "Matches skip pattern: ".toList ++ "logger_interface\\.h".toList)
        else if strSearch "thread_logger.h".toList (basename filepath) then
          (true, "Matches skip pattern: ".toList ++ "thread_logger\\.h".toList)
        else (false, [])) := by
    show skipLoop SKIP_PATTERNS (basename filepath) = _
    rw [show SKIP_PATTERNS = ["logger_interface\\.h".toList, "thread_logger\\.h".toList]
        from rfl]
    show (if strSearch (regexLiteral "logger_interface\\.h".toList) (basename filepath) then _
        else skipLoop ["thread_logger\\.h".toList] (basename filepath)) = _
    rw [hr1]
    cases h1 : strSearch "logger_interface.h".toList (basename filepath) with
    | true => rw [if_pos rfl, if_pos rfl]
    | false =>
      rw [if_neg (by simp), if_neg (by simp)]
      show (if strSearch (regexLiteral "thread_logger\\.h".toList) (basename filepath) then _
          else skipLoop [] (basename filepath)) = _
      rw [hr2]
      rfl
  refine ⟨?_, ?_, ?_, hbase⟩ <;>
    · rw [hloop]
      cases h1 : strSearch "logger_interface.h".toList (basename filepath) <;>
        cases h2 : strSearch "thread_logger.h".toList (basename filepath) <;>
          simp [h1, h2]

/-- Witness for C10: `logger_interface.hpp` matches pattern one by substring,
and `my_thread_logger.h` matches only pattern two, which supplies the reason. -/
theorem C10_skip_basename_substring_witness :
    (should_skip_file "src/core/logger_interface.hpp".toList).2
        = "Matches skip pattern: logger_interface\\.h".toList
      ∧ (should_skip_file "src/my_thread_logger.h".toList).2
        = "Matches skip pattern: thread_logger\\.h".toList :=
  ⟨(C10_skip_basename_substring "src/core/logger_interface.hpp".toList).2.1 (by decide),
   (C10_skip_basename_substring "src/my_thread_logger.h".toList).2.2.1 (by decide) (by decide)⟩

/-! ### The include insertion point (claim C3) -/

theorem findInsertIdx_keep : ∀ (ls : List (List Char)) (i a : Nat),
    (∀ l ∈ ls, lineHasKcenon l = false) → findInsertIdx i (some a) ls = some a := by
  intro ls
  induction ls with
  | nil => intro i a _; rfl
  | cons l ls ih =>
    intro i a h
    show findInsertIdx (i + 1)
      (if lineHasKcenon l then some (i + 1)
       else if "#include".toList.isPrefixOf l && (some a).isNone then some (i + 1)
       else some a) ls = some a
    rw [h l (List.mem_cons_self ..)]
    simp only [Bool.false_eq_true, if_false, Option.isNone_some, Bool.and_false]
    exact ih (i + 1) a fun x hx => h x (List.mem_cons_of_mem _ hx)

theorem findInsertIdx_no_kcenon : ∀ (ls : List (List Char)) (i : Nat),
    (∀ l ∈ ls, lineHasKcenon l = false) →
    findInsertIdx i none ls = (firstIncludeIdx i ls).map (· + 1) := by
  intro ls
  induction ls with
  | nil => intro i _; rfl
  | cons l ls ih =>
    intro i h
    show findInsertIdx (i + 1)
      (if lineHasKcenon l then some (i + 1)
       else if "#include".toList.isPrefixOf l && (none : Option Nat).isNone then some (i + 1)
       else none) ls = _
    rw [h l (List.mem_cons_self ..)]
    simp only [Bool.false_eq_true, if_false, Option.isNone_none, Bool.and_true]
    cases hp : "#include".toList.isPrefixOf l with
    | true =>
      rw [if_pos rfl, findInsertIdx_keep ls (i + 1) (i + 1)
        fun x hx => h x (List.mem_cons_of_mem _ hx)]
      show _ = (if ("#include".toList.isPrefixOf l) = true then some i
        else firstIncludeIdx (i + 1) ls).map (· + 1)
      rw [hp, if_pos rfl]
      rfl
    | false =>
      rw [if_neg (by simp)]
      rw [ih (i + 1) fun x hx => h x (List.mem_cons_of_mem _ hx)]
      show _ = (if ("#include".toList.isPrefixOf l) = true then some i
        else firstIncludeIdx (i + 1) ls).map (· + 1)
      rw [hp, if_neg (by simp)]

/-- C3 (amended).  When the rewritten file has no kcenon/thread include but
has at least one `#include` line (the first such line having index `j`), and
the declaration is not already present, `add_log_level_include` inserts the
declaration immediately after the FIRST dependency declaration of any kind. -/
theorem C3_insert_after_first_include (c : List Char) (j : Nat)
    (hk : ∀ l ∈ splitNl c, lineHasKcenon l = false)
    (hj : firstIncludeIdx 0 (splitNl c) = some j)
    (hp : strSearch include_line c = false) :
    add_log_level_include c = joinNl ((splitNl c).insertIdx (j + 1) include_line) := by
  rw [add_log_level_include_def, if_neg (by simp [hp])]
  have hidx : addInsertIdx (splitNl c) = j + 1 := by
    unfold addInsertIdx
    rw [findInsertIdx_no_kcenon (splitNl c) 0 hk, hj]
    rfl
  rw [hidx]

/-- C3 counterexample.  A file with two plain `#include` lines and no
kcenon/thread include: the code inserts the declaration after the FIRST
include (index 0), not after the last dependency declaration (index 1) as
the claim states; the claimed insertion point yields a different result. -/
theorem C3_counterexample :
    (∀ l ∈ splitNl "#include <a.h>\n#include <b.h>\nauto x = log_level_v2::warn;".toList,
        lineHasKcenon l = false)
      ∧ firstIncludeIdx 0
          (splitNl "#include <a.h>\n#include <b.h>\nauto x = log_level_v2::warn;".toList)
          = some 0
      ∧ add_log_level_include
          "#include <a.h>\n#include <b.h>\nauto x = log_level_v2::warn;".toList
        = ("#include <a.h>\n#include <kcenon/thread/core/log_level.h>\n"
            ++ "#include <b.h>\nauto x = log_level_v2::warn;").toList
      ∧ add_log_level_include
          "#include <a.h>\n#include <b.h>\nauto x = log_level_v2::warn;".toList
        ≠ joinNl ((splitNl "#include <a.h>\n#include <b.h>\nauto x = log_level_v2::warn;".toList).insertIdx
            2 include_line) := by
  refine ⟨by decide, by decide, by decide, by decide⟩

/-- Witness for the amended C3 at a concrete two-include file. -/
theorem C3_insert_after_first_include_witness :
    add_log_level_include
        "#include <a.h>\n#include <b.h>\nauto x = log_level_v2::warn;".toList
      = joinNl ((splitNl "#include <a.h>\n#include <b.h>\nauto x = log_level_v2::warn;".toList).insertIdx
          (0 + 1) include_line) :=
  C3_insert_after_first_include
    "#include <a.h>\n#include <b.h>\nauto x = log_level_v2::warn;".toList 0
    (by decide) (by decide) (by decide)

/-! ### Include injection single-shot (claim C5) -/

theorem searchLLH_append {u : List Char} (hnl : '\n' ∉ u) {v : List Char}
    (hv : searchLLH v = true) : searchLLH (u ++ v) = true := by
  induction u with
  | nil => exact hv
  | cons c u ih =>
    show (llhAt (c :: (u ++ v)) || (c != '\n' && searchLLH (u ++ v))) = true
    have hc : (c != '\n') = true := by
      rw [bne_iff_ne]
      intro he
      exact hnl (he ▸ List.mem_cons_self ..)
    rw [ih fun hm => hnl (List.mem_cons_of_mem _ hm), hc]
    simp

theorem searchLLH_of_llhAt {s : List Char} (h : llhAt s = true) : searchLLH s = true := by
  cases s with
  | nil => simp [llhAt, List.isPrefixOf] at h
  | cons c cs =>
    show (llhAt (c :: cs) || (c != '\n' && searchLLH cs)) = true
    rw [h]
    rfl

theorem dropWhile_append_of_ne_nil {p : Char → Bool} :
    ∀ {u : List Char}, u.dropWhile p ≠ [] →
      ∀ b, (u ++ b).dropWhile p = u.dropWhile p ++ b := by
  intro u
  induction u with
  | nil => intro h; exact absurd rfl h
  | cons x u ih =>
    intro h b
    cases hx : p x with
    | true =>
      have h2 : u.dropWhile p ≠ [] := by
        rwa [List.dropWhile_cons, hx, if_pos rfl] at h
      rw [List.cons_append, List.dropWhile_cons, hx, if_pos rfl,
        List.dropWhile_cons, hx, if_pos rfl, ih h2 b]
    | false =>
      rw [List.cons_append, List.dropWhile_cons, hx, List.dropWhile_cons, hx]
      simp only [Bool.false_eq_true, if_false]
      rfl

theorem llhAt_head (y : List Char) : llhAt ("log_level.h>".toList ++ y) = true := by
  unfold llhAt
  rw [isPrefixOf_append_right (by decide)]
  rw [show ("log_level.h>".toList ++ y).drop 11 = "log_level.h>".toList.drop 11 ++ y from
    List.drop_append_of_le_length (by decide)]
  rw [show "log_level.h>".toList.drop 11 = ['>'] from rfl]
  show ("log_level.h".toList.isPrefixOf "log_level.h>".toList
    && (('>' == '>') || ('>' == '\x22'))) = true
  decide

theorem matchIncludeAt_include (b : List Char) :
    matchIncludeAt (include_line ++ b) = true := by
  unfold matchIncludeAt
  rw [isPrefixOf_append_right (by decide)]
  rw [show (include_line ++ b).drop 8 = include_line.drop 8 ++ b from
    List.drop_append_of_le_length (by decide)]
  rw [dropWhile_append_of_ne_nil (by decide) b]
  rw [show (include_line.drop 8).dropWhile isSpacePy
      = '<' :: ("kcenon/thread/core/".toList ++ "log_level.h>".toList) from by decide]
  have hs : searchLLH (("kcenon/thread/core/".toList ++ "log_level.h>".toList) ++ b) = true := by
    rw [List.append_assoc]
    exact searchLLH_append (by decide) (searchLLH_of_llhAt (llhAt_head b))
  rw [show ('<' :: ("kcenon/thread/core/".toList ++ "log_level.h>".toList)) ++ b
      = '<' :: (("kcenon/thread/core/".toList ++ "log_level.h>".toList) ++ b) from rfl]
  rw [show "#include".toList.isPrefixOf include_line = true from by decide]
  simp only [Bool.true_and]
  rw [hs]
  decide

theorem strSearch_include_line_hasLLH {x : List Char}
    (h : strSearch include_line x = true) : hasIncludeLLH x = true := by
  obtain ⟨a, b, rfl⟩ := (strSearch_iff include_line x).mp h
  exact (scanPos_iff matchIncludeAt _).mpr ⟨a, include_line ++ b, rfl, matchIncludeAt_include b⟩

/-- C5.  Include injection single-shot: for a rewrite that produced at least
one change and whose output references `log_level_v2::`, exactly one
declaration line is inserted (at a valid index) when the include-detection
regex finds no declaration; and no line is inserted when the exact
declaration string is already present anywhere. -/
theorem C5_include_injection_single_shot (c : List Char)
    (hch : (migrate_lines 1 (splitNl c)).2 ≠ [])
    (hv2 : strSearch "log_level_v2::".toList (joinNl (migrate_lines 1 (splitNl c)).1) = true) :
    (hasIncludeLLH (joinNl (migrate_lines 1 (splitNl c)).1) = false →
        splitNl (migrate_content c).1
            = (migrate_lines 1 (splitNl c)).1.insertIdx
                (addInsertIdx (migrate_lines 1 (splitNl c)).1) include_line
          ∧ addInsertIdx (migrate_lines 1 (splitNl c)).1
              ≤ (migrate_lines 1 (splitNl c)).1.length)
      ∧ (strSearch include_line (joinNl (migrate_lines 1 (splitNl c)).1) = true →
          (migrate_content c).1 = joinNl (migrate_lines 1 (splitNl c)).1) := by
  have hNL : (migrate_lines 1 (splitNl c)).1
      = (splitNl c).map (fun l => subScan [] l) := migrate_lines_fst _ 1
  have hNLne : (migrate_lines 1 (splitNl c)).1 ≠ [] := by
    rw [hNL]
    intro h
    exact splitNl_ne_nil c (List.map_eq_nil_iff.mp h)
  have hNLnl : ∀ l ∈ (migrate_lines 1 (splitNl c)).1, '\n' ∉ l := by
    rw [hNL]
    intro l hl
    obtain ⟨l0, hl0, rfl⟩ := List.mem_map.mp hl
    exact subScan_no_nl (mem_splitNl_no_nl c l0 hl0) []
  constructor
  · intro hfalse
    have hneeds : needs_include_update (joinNl (migrate_lines 1 (splitNl c)).1) = true := by
      unfold needs_include_update
      rw [if_pos hv2, hfalse]
      rfl
    have hcond : (!(migrate_lines 1 (splitNl c)).2.isEmpty
        && needs_include_update (joinNl (migrate_lines 1 (splitNl c)).1)) = true := by
      rw [hneeds, Bool.and_true, Bool.not_eq_true']
      cases hE : (migrate_lines 1 (splitNl c)).2 with
      | nil => exact absurd hE hch
      | cons a l => rfl
    have hss : strSearch include_line (joinNl (migrate_lines 1 (splitNl c)).1) = false := by
      cases hss2 : strSearch include_line (joinNl (migrate_lines 1 (splitNl c)).1) with
      | false => rfl
      | true => exact absurd (strSearch_include_line_hasLLH hss2) (by rw [hfalse]; simp)
    have h1 : (migrate_content c).1
        = add_log_level_include (joinNl (migrate_lines 1 (splitNl c)).1) := by
      rw [migrate_content_def, hcond]
      rfl
    rw [h1, add_log_level_include_def, splitNl_joinNl _ hNLne hNLnl, if_neg (by simp [hss])]
    refine ⟨?_, addInsertIdx_le _⟩
    apply splitNl_joinNl _ (insertIdx_ne_nil hNLne _ _)
    intro l hl
    rcases mem_insertIdx_cases hl with rfl | h2
    · exact include_line_no_nl
    · exact hNLnl l h2
  · intro htrue
    have hneeds : needs_include_update (joinNl (migrate_lines 1 (splitNl c)).1) = false := by
      unfold needs_include_update
      rw [if_pos hv2, strSearch_include_line_hasLLH htrue]
      rfl
    rw [migrate_content_def]
    rw [show (!(migrate_lines 1 (splitNl c)).2.isEmpty
        && needs_include_update (joinNl (migrate_lines 1 (splitNl c)).1)) = false from by
      rw [hneeds, Bool.and_false]]
    rfl

/-- Witness for C5 at the single-line scenario file. -/
theorem C5_include_injection_single_shot_witness :
    splitNl (migrate_content "auto lvl = log_level::warning;".toList).1
        = (migrate_lines 1 (splitNl "auto lvl = log_level::warning;".toList)).1.insertIdx
            (addInsertIdx (migrate_lines 1 (splitNl "auto lvl = log_level::warning;".toList)).1)
            include_line
      ∧ addInsertIdx (migrate_lines 1 (splitNl "auto lvl = log_level::warning;".toList)).1
          ≤ (migrate_lines 1 (splitNl "auto lvl = log_level::warning;".toList)).1.length :=
  (C5_include_injection_single_shot "auto lvl = log_level::warning;".toList
    (by decide) (by decide)).1 (by decide)

/-! ### Skip enforcement (claim C6) -/

theorem should_skip_eval (p : List Char) :
    (should_skip_file p).1 = (strSearch "logger_interface.h".toList (basename p)
      || strSearch "thread_logger.h".toList (basename p)) := by
  have hr1 : regexLiteral "logger_interface\\.h".toList = "logger_interface.h".toList := by decide
  have hr2 : regexLiteral "thread_logger\\.h".toList = "thread_logger.h".toList := by decide
  show (skipLoop SKIP_PATTERNS (basename p)).1 = _
  rw [show SKIP_PATTERNS = ["logger_interface\\.h".toList, "thread_logger\\.h".toList] from rfl]
  show (if strSearch (regexLiteral "logger_interface\\.h".toList) (basename p) then _
      else skipLoop ["thread_logger\\.h".toList] (basename p)).1 = _
  rw [hr1]
  cases h1 : strSearch "logger_interface.h".toList (basename p) with
  | true => rw [if_pos rfl]; rfl
  | false =>
    rw [if_neg (by simp)]
    show (if strSearch (regexLiteral "thread_logger\\.h".toList) (basename p) then _
        else skipLoop [] (basename p)).1 = _
    rw [hr2]
    cases h2 : strSearch "thread_logger.h".toList (basename p) with
    | true => rw [if_pos rfl]; rfl
    | false => rw [if_neg (by simp)]; rfl

theorem takeWhile_append_all {pr : Char → Bool} :
    ∀ {l1 : List Char} (l2 : List Char), (∀ c ∈ l1, pr c = true) →
      (l1 ++ l2).takeWhile pr = l1 ++ l2.takeWhile pr := by
  intro l1
  induction l1 with
  | nil => intro l2 _; rfl
  | cons c cs ih =>
    intro l2 h
    rw [List.cons_append, List.takeWhile_cons, h c (List.mem_cons_self ..), if_pos rfl,
      ih l2 fun x hx => h x (List.mem_cons_of_mem _ hx)]
    rfl

theorem basename_append {q t : List Char} (ht : ∀ c ∈ t, c ≠ '/') :
    basename (q ++ t) = basename q ++ t := by
  rw [basename, basename, List.reverse_append]
  rw [takeWhile_append_all q.reverse (by
    intro c hc
    simpa using ht c (List.mem_reverse.mp hc))]
  rw [List.reverse_append, List.reverse_reverse]

theorem isPrefixOf_stop {w : List Char} : ∀ {b t : List Char},
    w.isPrefixOf (b ++ t) = true → (∀ ch, w.getLast? = some ch → ch ∉ t) →
    w.isPrefixOf b = true := by
  induction w with
  | nil => intro b t _ _; simp [List.isPrefixOf_iff_prefix]
  | cons a w ih =>
    intro b t h hlast
    cases b with
    | nil =>
      rw [List.nil_append] at h
      have hpre : (a :: w) <+: t := List.isPrefixOf_iff_prefix.mp h
      have hmem : (a :: w).getLast (by simp) ∈ t :=
        hpre.subset (List.getLast_mem (by simp))
      exact absurd hmem (hlast _ (List.getLast?_eq_getLast _ (by simp)))
    | cons x b =>
      have h2 : (a == x && w.isPrefixOf (b ++ t)) = true := h
      obtain ⟨hax, h3⟩ := Bool.and_eq_true .. |>.mp h2
      cases w with
      | nil =>
        show (a == x && List.isPrefixOf [] b) = true
        rw [hax, show List.isPrefixOf ([] : List Char) b = true from by
          simp [List.isPrefixOf_iff_prefix]]
        rfl
      | cons a2 w2 =>
        have hlast2 : ∀ ch, (a2 :: w2).getLast? = some ch → ch ∉ t := by
          intro ch hch
          exact hlast ch (by rw [List.getLast?_cons_cons]; exact hch)
        have h4 := ih h3 hlast2
        show (a == x && (a2 :: w2).isPrefixOf b) = true
        rw [hax, h4]
        rfl

theorem strSearch_stop {w : List Char} (hw : w ≠ []) {t : List Char}
    (hlast : ∀ ch, w.getLast? = some ch → ch ∉ t) :
    ∀ {b : List Char}, strSearch w (b ++ t) = true → strSearch w b = true := by
  intro b
  induction b with
  | nil =>
    intro h
    rw [List.nil_append] at h
    obtain ⟨a, b2, habt⟩ := (strSearch_iff w t).mp h
    have hmem : w.getLast hw ∈ t := by
      rw [habt]
      exact List.mem_append.mpr (Or.inr (List.mem_append.mpr (Or.inl (List.getLast_mem hw))))
    exact absurd hmem (hlast _ (List.getLast?_eq_getLast w hw))
  | cons x b ih =>
    intro h
    have h' : (w.isPrefixOf (x :: (b ++ t)) || strSearch w (b ++ t)) = true := h
    show (w.isPrefixOf (x :: b) || strSearch w b) = true
    rcases Bool.or_eq_true .. |>.mp h' with h1 | h1
    · have h2 : w.isPrefixOf ((x :: b) ++ t) = true := h1
      rw [isPrefixOf_stop h2 hlast]
      rfl
    · rw [ih h1]
      simp

theorem should_skip_bak {q : List Char}
    (h : (should_skip_file (q ++ bakSuffix)).1 = true) : (should_skip_file q).1 = true := by
  rw [should_skip_eval] at h ⊢
  rw [basename_append (by decide)] at h
  rcases Bool.or_eq_true .. |>.mp h with h1 | h1
  · rw [strSearch_stop (by decide) (by decide) h1]
    rfl
  · rw [strSearch_stop (by decide) (by decide) h1]
    simp

theorem fsUpdate_ne {fs : FS} {x d p} (h : p ≠ x) : fsUpdate fs x d p = fs p := by
  simp [fsUpdate, h]

theorem stepFile_preserve {args : Args} {fs : FS} {stats : RunStats} {q p : List Char}
    (h1 : q = p → (should_skip_file q).1 = true)
    (h2 : q ++ bakSuffix = p → (should_skip_file q).1 = true) :
    (stepFile args (fs, stats) q).1 p = fs p := by
  by_cases hsk : (should_skip_file q).1 = true
  · rw [stepFile_eq, migrate_file_skip hsk]
    rfl
  · have hqp : q ≠ p := fun he => hsk (h1 he)
    have hqbp : q ++ bakSuffix ≠ p := fun he => hsk (h2 he)
    rw [stepFile_eq]
    cases herr : (migrate_file q (fs q)).error with
    | some msg => rfl
    | none =>
      cases hskq : (migrate_file q (fs q)).skipped with
      | true => rw [if_pos rfl]
      | false =>
        rw [if_neg (by simp)]
        cases hemp : (migrate_file q (fs q)).changes.isEmpty with
        | true => rw [if_pos rfl]
        | false =>
          rw [if_neg (by simp)]
          cases hdry : args.dry_run with
          | true => rw [if_pos rfl]
          | false =>
            rw [if_neg (by simp)]
            show fsUpdate (if args.backup then fsUpdate fs (q ++ bakSuffix) _ else fs) q _ p
              = fs p
            rw [fsUpdate_ne fun he => hqp he.symm]
            cases hbk : args.backup with
            | true => rw [if_pos rfl, fsUpdate_ne fun he => hqbp he.symm]
            | false => rw [if_neg (by simp)]

theorem foldl_preserve {args : Args} {p : List Char} :
    ∀ (files : List (List Char)) (st : FS × RunStats),
      (∀ q ∈ files, (q = p → (should_skip_file q).1 = true)
        ∧ (q ++ bakSuffix = p → (should_skip_file q).1 = true)) →
      (files.foldl (stepFile args) st).1 p = st.1 p := by
  intro files
  induction files with
  | nil => intro st _; rfl
  | cons q files ih =>
    intro st h
    rw [List.foldl_cons]
    rw [ih (stepFile args st q) fun x hx => h x (List.mem_cons_of_mem _ hx)]
    obtain ⟨fs, stats⟩ := st
    exact stepFile_preserve (h q (List.mem_cons_self ..)).1 (h q (List.mem_cons_self ..)).2

theorem stepFile_skipped_delta (args : Args) (fs : FS) (stats : RunStats) (q : List Char) :
    (stepFile args (fs, stats) q).2.files_skipped
      = stats.files_skipped + (if (should_skip_file q).1 then 1 else 0) := by
  by_cases hsk : (should_skip_file q).1 = true
  · rw [stepFile_eq, migrate_file_skip hsk, if_pos hsk]
    rfl
  · have hsk' : (should_skip_file q).1 = false := by
      cases h : (should_skip_file q).1
      · rfl
      · exact absurd h hsk
    rw [stepFile_eq, if_neg hsk]
    rw [migrate_file_noskip hsk']
    cases hd : fs q with
    | unreadable => rfl
    | readable c =>
      show (if (false : Bool) then _ else _ : FS × RunStats).2.files_skipped = _
      rw [if_neg (by simp)]
      split
      · rfl
      · split
        · rfl
        · split
          · rfl
          · rfl

theorem foldl_skipped_count {args : Args} :
    ∀ (files : List (List Char)) (st : FS × RunStats),
      (files.foldl (stepFile args) st).2.files_skipped
        = st.2.files_skipped + files.countP (fun q => (should_skip_file q).1) := by
  intro files
  induction files with
  | nil => intro st; simp [List.countP_nil]
  | cons q files ih =>
    intro st
    rw [List.foldl_cons, ih (stepFile args st q), List.countP_cons]
    obtain ⟨fs, stats⟩ := st
    rw [stepFile_skipped_delta]
    simp only []
    omega

theorem stepFile_changed_delta (args : Args) (fs : FS) (stats : RunStats) (q : List Char) :
    (stepFile args (fs, stats) q).2.files_changed
      ≤ stats.files_changed + (if (should_skip_file q).1 then 0 else 1) := by
  by_cases hsk : (should_skip_file q).1 = true
  · rw [stepFile_eq, migrate_file_skip hsk, if_pos hsk]
    simp
  · have hsk' : (should_skip_file q).1 = false := by
      cases h : (should_skip_file q).1
      · rfl
      · exact absurd h hsk
    rw [stepFile_eq, if_neg hsk]
    cases herr : (migrate_file q (fs q)).error with
    | some msg => simp
    | none =>
      cases hskq : (migrate_file q (fs q)).skipped with
      | true => rw [if_pos rfl]; simp
      | false =>
        rw [if_neg (by simp)]
        cases hemp : (migrate_file q (fs q)).changes.isEmpty with
        | true => rw [if_pos rfl]; simp
        | false =>
          rw [if_neg (by simp)]
          cases hdry : args.dry_run with
          | true => rw [if_pos rfl]
          | false => rw [if_neg (by simp)]

theorem foldl_changed_le {args : Args} :
    ∀ (files : List (List Char)) (st : FS × RunStats),
      (files.foldl (stepFile args) st).2.files_changed
        ≤ st.2.files_changed + files.countP (fun q => !(should_skip_file q).1) := by
  intro files
  induction files with
  | nil => intro st; simp [List.countP_nil]
  | cons q files ih =>
    intro st
    rw [List.foldl_cons, List.countP_cons]
    have h1 := ih (stepFile args st q)
    obtain ⟨fs, stats⟩ := st
    have h2 := stepFile_changed_delta args fs stats q
    cases hsk : (should_skip_file q).1 <;>
      · rw [hsk] at h2
        simp only [hsk] at *
        simp at h2 ⊢
        omega

/-- C6.  Skip enforcement: a file whose base name matches a skip pattern is
never written by the run (for any flags, including non-dry-run with backup),
it is counted by the skipped counter (which counts exactly the matching
files), the changed counter only counts non-matching files, the skipped
file records no changes (its result's changes list is empty for any file
data), and its processing step only increments the skipped counter: it
leaves the filesystem, the changed counter, the total-changes counter and
the error stream untouched. -/
theorem C6_skip_enforcement (args : Args) (files : List (List Char)) (fs : FS)
    (p : List Char) (_hmem : p ∈ files) (hsk : (should_skip_file p).1 = true) :
    (mainRun args true files fs).fs p = fs p
      ∧ (mainRun args true files fs).stats.files_skipped
          = files.countP (fun q => (should_skip_file q).1)
      ∧ (mainRun args true files fs).stats.files_changed
          ≤ files.countP (fun q => !(should_skip_file q).1)
      ∧ (∀ d : FileData, (migrate_file p d).changes = [])
      ∧ (∀ (fs2 : FS) (st : RunStats),
          stepFile args (fs2, st) p
            = (fs2, { st with files_skipped := st.files_skipped + 1 })) := by
  refine ⟨?_, ?_, ?_, ?_, ?_⟩
  · show (files.foldl (stepFile args) (fs, {})).1 p = fs p
    apply foldl_preserve files (fs, {})
    intro q _
    constructor
    · intro he
      rw [he]
      exact hsk
    · intro he
      apply should_skip_bak
      rw [he]
      exact hsk
  · show (files.foldl (stepFile args) (fs, {})).2.files_skipped = _
    rw [foldl_skipped_count files (fs, {})]
    simp
  · show (files.foldl (stepFile args) (fs, {})).2.files_changed ≤ _
    have h2 := @foldl_changed_le args files (fs, ({} : RunStats))
    simpa using h2
  · intro d
    rw [migrate_file_skip hsk d]
  · intro fs2 st
    rw [stepFile_eq, migrate_file_skip hsk]
    rfl

/-- Witness for C6: a skipped interface header with a migratable line is
left untouched by a non-dry-run with backups, and counted as skipped. -/
theorem C6_skip_enforcement_witness :
    (mainRun ⟨false, true⟩ true ["src/logger_interface.h".toList]
        (fun _ => FileData.readable "x = log_level::error;".toList)).fs
          "src/logger_interface.h".toList
      = (fun _ => FileData.readable "x = log_level::error;".toList)
          "src/logger_interface.h".toList
      ∧ (mainRun ⟨false, true⟩ true ["src/logger_interface.h".toList]
          (fun _ => FileData.readable "x = log_level::error;".toList)).stats.files_skipped
        = ["src/logger_interface.h".toList].countP (fun q => (should_skip_file q).1)
      ∧ (migrate_file "src/logger_interface.h".toList
          (FileData.readable "x = log_level::error;".toList)).changes = []
      ∧ stepFile ⟨false, true⟩
          ((fun _ => FileData.readable "x = log_level::error;".toList), {})
          "src/logger_interface.h".toList
        = ((fun _ => FileData.readable "x = log_level::error;".toList),
           { files_skipped := ({} : RunStats).files_skipped + 1 }) := by
  have h := C6_skip_enforcement ⟨false, true⟩ ["src/logger_interface.h".toList]
    (fun _ => FileData.readable "x = log_level::error;".toList)
    "src/logger_interface.h".toList (by simp) (by decide)
  exact ⟨h.1, h.2.1, h.2.2.2.1 (FileData.readable "x = log_level::error;".toList),
    h.2.2.2.2 (fun _ => FileData.readable "x = log_level::error;".toList) {}⟩

/-! ### Read-error recovery (claim C8) -/

theorem addStats_zero (s : RunStats) : addStats s {} = s := by
  simp [addStats]

theorem addStats_assoc (a b c : RunStats) :
    addStats (addStats a b) c = addStats a (addStats b c) := by
  simp [addStats, Nat.add_assoc]

theorem stepFile_eq_err {args : Args} {fs : FS} {stats : RunStats} {q msg : List Char}
    (h : (migrate_file q (fs q)).error = some msg) :
    stepFile args (fs, stats) q
      = (fs, { stats with errors := stats.errors ++ [errorLine q msg] }) := by
  rw [stepFile_eq, h]

theorem stepFile_eq_none {args : Args} {fs : FS} {stats : RunStats} {q : List Char}
    (h : (migrate_file q (fs q)).error = none) :
    stepFile args (fs, stats) q
      = (if (migrate_file q (fs q)).skipped then
          (fs, { stats with files_skipped := stats.files_skipped + 1 })
        else if (migrate_file q (fs q)).changes.isEmpty then (fs, stats)
        else if args.dry_run then
          (fs, { stats with files_changed := stats.files_changed + 1, total_changes := stats.total_changes + (migrate_file q (fs q)).changes.length })
        else
          (fsUpdate (if args.backup then
              fsUpdate fs (q ++ bakSuffix)
                (FileData.readable (migrate_file q (fs q)).original_content)
            else fs) q (FileData.readable (migrate_file q (fs q)).new_content),
           { stats with files_changed := stats.files_changed + 1, total_changes := stats.total_changes + (migrate_file q (fs q)).changes.length })) := by
  rw [stepFile_eq, h]

theorem stepFile_shift (args : Args) (st : FS × RunStats) (q : List Char) :
    stepFile args st q
      = ((stepFile args (st.1, {}) q).1,
         addStats st.2 (stepFile args (st.1, {}) q).2) := by
  obtain ⟨fs, stats⟩ := st
  cases herr : (migrate_file q (fs q)).error with
  | some msg =>
    rw [show ((fs, stats) : FS × RunStats).1 = fs from rfl, stepFile_eq_err herr,
      stepFile_eq_err herr]
    simp [addStats]
  | none =>
    rw [show ((fs, stats) : FS × RunStats).1 = fs from rfl, stepFile_eq_none herr,
      stepFile_eq_none herr]
    cases hskq : (migrate_file q (fs q)).skipped with
    | true =>
      rw [if_pos rfl, if_pos rfl]
      simp [addStats]
    | false =>
      simp only [Bool.false_eq_true, if_false]
      cases hemp : (migrate_file q (fs q)).changes.isEmpty with
      | true =>
        rw [if_pos rfl, if_pos rfl]
        simp [addStats]
      | false =>
        simp only [Bool.false_eq_true, if_false]
        cases hdry : args.dry_run with
        | true =>
          rw [if_pos rfl, if_pos rfl]
          simp [addStats]
        | false =>
          simp only [Bool.false_eq_true, if_false]
          simp [addStats]

theorem foldl_shift (args : Args) :
    ∀ (files : List (List Char)) (st : FS × RunStats),
      files.foldl (stepFile args) st
        = ((files.foldl (stepFile args) (st.1, {})).1,
           addStats st.2 (files.foldl (stepFile args) (st.1, {})).2) := by
  intro files
  induction files with
  | nil =>
    intro st
    show st = (st.1, addStats st.2 {})
    rw [addStats_zero]
  | cons q files ih =>
    intro st
    rw [List.foldl_cons, List.foldl_cons]
    rw [ih (stepFile args st q)]
    rw [stepFile_shift args st q]
    rw [ih (stepFile args (st.1, {}) q)]
    simp only []
    rw [addStats_assoc]

theorem migrate_file_unreadable {p : List Char} (h : (should_skip_file p).1 = false) :
    migrate_file p FileData.unreadable
      = { path := p, error := some "Failed to read file".toList } := by
  rw [migrate_file_noskip h]

/-- C8.  Read-error recovery: an unreadable, non-skipped file in the middle
of the run is reported to the error stream, excluded from writing, leaves
every other file's processing unchanged (same filesystem effect and same
counters as the run without it), and the exit code stays 0. -/
theorem C8_read_error_recovery (args : Args) (fs : FS) (l1 l2 : List (List Char))
    (p : List Char)
    (hunread : fs p = FileData.unreadable)
    (hnoskip : (should_skip_file p).1 = false)
    (hnodup : p ∉ l1)
    (hbak : ∀ q ∈ l1, q ++ bakSuffix ≠ p) :
    (mainRun args true (l1 ++ p :: l2) fs).exit_code = 0
      ∧ (∀ x, (mainRun args true (l1 ++ p :: l2) fs).fs x
          = (mainRun args true (l1 ++ l2) fs).fs x)
      ∧ (mainRun args true (l1 ++ p :: l2) fs).stats.files_changed
          = (mainRun args true (l1 ++ l2) fs).stats.files_changed
      ∧ (mainRun args true (l1 ++ p :: l2) fs).stats.files_skipped
          = (mainRun args true (l1 ++ l2) fs).stats.files_skipped
      ∧ (mainRun args true (l1 ++ p :: l2) fs).stats.total_changes
          = (mainRun args true (l1 ++ l2) fs).stats.total_changes
      ∧ errorLine p "Failed to read file".toList
          ∈ (mainRun args true (l1 ++ p :: l2) fs).stats.errors := by
  rcases hfold : l1.foldl (stepFile args) (fs, ({} : RunStats)) with ⟨fs1, s1⟩
  have hread : fs1 p = fs p := by
    have h := @foldl_preserve args p l1 (fs, ({} : RunStats)) (by
      intro q hq
      exact ⟨fun he => absurd (he ▸ hq) hnodup, fun he => absurd he (hbak q hq)⟩)
    rw [hfold] at h
    exact h
  have hdata : fs1 p = FileData.unreadable := hread.trans hunread
  have hstep : stepFile args (fs1, s1) p
      = (fs1, { s1 with errors := s1.errors
          ++ [errorLine p "Failed to read file".toList] }) := by
    rw [stepFile_eq, hdata, migrate_file_unreadable hnoskip]
  have hLHS : (l1 ++ p :: l2).foldl (stepFile args) (fs, ({} : RunStats))
      = l2.foldl (stepFile args)
          (fs1, { s1 with errors := s1.errors
            ++ [errorLine p "Failed to read file".toList] }) := by
    rw [List.foldl_append, hfold, List.foldl_cons, hstep]
  have hRHS : (l1 ++ l2).foldl (stepFile args) (fs, ({} : RunStats))
      = l2.foldl (stepFile args) (fs1, s1) := by
    rw [List.foldl_append, hfold]
  have hshift1 := foldl_shift args l2 (fs1, { s1 with errors := s1.errors
    ++ [errorLine p "Failed to read file".toList] })
  have hshift2 := foldl_shift args l2 (fs1, s1)
  simp only [] at hshift1 hshift2
  refine ⟨rfl, ?_, ?_, ?_, ?_, ?_⟩
  · intro x
    show ((l1 ++ p :: l2).foldl (stepFile args) (fs, {})).1 x
      = ((l1 ++ l2).foldl (stepFile args) (fs, {})).1 x
    rw [hLHS, hRHS, hshift1, hshift2]
  · show ((l1 ++ p :: l2).foldl (stepFile args) (fs, {})).2.files_changed
      = ((l1 ++ l2).foldl (stepFile args) (fs, {})).2.files_changed
    rw [hLHS, hRHS, hshift1, hshift2]
    simp [addStats]
  · show ((l1 ++ p :: l2).foldl (stepFile args) (fs, {})).2.files_skipped
      = ((l1 ++ l2).foldl (stepFile args) (fs, {})).2.files_skipped
    rw [hLHS, hRHS, hshift1, hshift2]
    simp [addStats]
  · show ((l1 ++ p :: l2).foldl (stepFile args) (fs, {})).2.total_changes
      = ((l1 ++ l2).foldl (stepFile args) (fs, {})).2.total_changes
    rw [hLHS, hRHS, hshift1, hshift2]
    simp [addStats]
  · show errorLine p "Failed to read file".toList
      ∈ ((l1 ++ p :: l2).foldl (stepFile args) (fs, {})).2.errors
    rw [hLHS, hshift1]
    simp [addStats]

/-- Witness for C8: a single unreadable file is reported, nothing is
written, counters stay zero and the exit code is 0. -/
theorem C8_read_error_recovery_witness :
    (mainRun ⟨false, false⟩ true ([] ++ "bad.cpp".toList :: [])
        (fun _ => FileData.unreadable)).exit_code = 0
      ∧ (mainRun ⟨false, false⟩ true ([] ++ "bad.cpp".toList :: [])
          (fun _ => FileData.unreadable)).fs "bad.cpp".toList
        = (mainRun ⟨false, false⟩ true ([] ++ [])
            (fun _ => FileData.unreadable)).fs "bad.cpp".toList
      ∧ errorLine "bad.cpp".toList "Failed to read file".toList
        ∈ (mainRun ⟨false, false⟩ true ([] ++ "bad.cpp".toList :: [])
            (fun _ => FileData.unreadable)).stats.errors := by
  have h := C8_read_error_recovery ⟨false, false⟩ (fun _ => FileData.unreadable) [] []
    "bad.cpp".toList rfl (by decide) (by simp) (by simp)
  exact ⟨h.1, h.2.1 "bad.cpp".toList, h.2.2.2.2.2⟩

/-! ### Concrete evaluations of the model -/

example : subScan [] "auto lvl = log_level::warning;".toList
    = "auto lvl = log_level_v2::warn;".toList := by decide

example : subScan [] "x = log_level_v2::warn;".toList
    = "x = log_level_v2::warn;".toList := by decide

example : subScan [] "kcenon::thread::log_level::error".toList
    = "kcenon::thread::log_level_v2::error".toList := by decide

example : subScan [] "my_log_level::trace _v2::log_level::debug".toList
    = "my_log_level::trace _v2::log_level::debug".toList := by decide

example : migrate_content "auto lvl = log_level::warning;".toList
    = ("#include <kcenon/thread/core/log_level.h>\nauto lvl = log_level_v2::warn;".toList,
       [(1, "auto lvl = log_level::warning;".toList, "auto lvl = log_level_v2::warn;".toList)]) := by
  decide

example : (should_skip_file "src/impl/thread_logger.hpp".toList).1 = true := by decide

example : (should_skip_file "src/logger_interface/util.cpp".toList).1 = false := by decide
end MigrateLogLevels
